import Mathlib

/-!
Shallow embedding of the geospatial geometry engine of the territory map
repository: viewport culling (useViewportPolygons.ts), the Douglas-Peucker
preprocessing script, centroid and conversion utilities (utils/geometry.ts)
and the monotone-chain convex hull builder.  JavaScript numbers are embedded
as exact rationals; the square-root based distance comparisons of the source
are embedded by comparing squared distances, which is equivalent for
nonnegative quantities; a JavaScript division whose divisor is zero (whose
result would be NaN or an infinity) is embedded as `Option.none`.
-/

namespace Territory

/-- A raw coordinate pair as it appears in GeoJSON arrays: an `[x, y]` array. -/
abbrev Coord : Type := ℚ × ℚ

/-- The `google.maps.LatLngLiteral` record `{lat, lng}`. -/
structure LatLng where
  lat : ℚ
  lng : ℚ
  deriving DecidableEq, Repr

/-- The `{north, south, east, west}` bounding-box record (`PolygonBounds` /
`google.maps.LatLngBoundsLiteral`). -/
structure Bounds where
  north : ℚ
  south : ℚ
  east : ℚ
  west : ℚ
  deriving DecidableEq, Repr

/-- The `FSAProperties` record of `types.ts` (only the fields that the
conversion entry points copy into a `ConvertedPolygon`). -/
structure FSAProperties where
  gml_id : String
  CFSAUID : String
  PRUID : String
  PRNAME : String
  deriving DecidableEq, Repr

/-- The `coordinates` field of a `ConvertedPolygon`: a list of rings for a
Polygon feature, a list of polygon parts for a MultiPolygon feature. -/
inductive ConvCoords where
  | single : List (List LatLng) → ConvCoords
  | multi : List (List (List LatLng)) → ConvCoords
  deriving DecidableEq, Repr

/-- The `ConvertedPolygon` record of `types.ts`.  The `center` is an
`Option LatLng`: `none` encodes a JavaScript result containing NaN. -/
structure ConvertedPolygon where
  id : String
  fsaId : String
  provinceId : String
  provinceName : String
  coordinates : ConvCoords
  center : Option LatLng
  isMultiPolygon : Bool
  deriving DecidableEq, Repr

/-- `PolygonWithBounds` of `useViewportPolygons.ts`: a converted polygon
together with its precomputed bounding box. -/
structure PolygonWithBounds extends ConvertedPolygon where
  bounds : Bounds
  deriving DecidableEq, Repr

/-- `boundsIntersect` from `useViewportPolygons.ts`: no intersection when one
box is entirely above, below, left, or right of the other. -/
def boundsIntersect (a : Bounds) (b : Bounds) : Bool :=
  if a.south > b.north || a.north < b.south then false
  else if a.west > b.east || a.east < b.west then false
  else true

/-- The `visiblePolygons` memo of `useViewportPolygons.ts`: when `mapBounds`
is null show all polygons, otherwise filter by bounding-box intersection. -/
def visiblePolygons (mapBounds : Option Bounds)
    (polygonsWithBounds : List PolygonWithBounds) : List PolygonWithBounds :=
  match mapBounds with
  | some b => polygonsWithBounds.filter (fun p => boundsIntersect p.bounds b)
  | none => polygonsWithBounds

/-- Division as performed by JavaScript, with a `none` result when the divisor
is zero (the JavaScript quotient would then be NaN or an infinity). -/
def jsdiv (a b : ℚ) : Option ℚ :=
  if b = 0 then none else some (a / b)

/-- The square of `perpendicularDistance` from the preprocessing script.  The
source divides `|dy*x - dx*y + x2*y1 - y2*x1|` by `sqrt (dx^2 + dy^2)`; the
embedding tracks squared distances so that every comparison of nonnegative
distances made by `simplifyLine` is decided exactly over `ℚ`.  The degenerate
branch (`lineStart = lineEnd`) returns the squared Euclidean distance. -/
def perpendicularDistanceSq (point lineStart lineEnd : Coord) : Option ℚ :=
  let dx := lineEnd.1 - lineStart.1
  let dy := lineEnd.2 - lineStart.2
  if dx = 0 ∧ dy = 0 then
    some ((point.1 - lineStart.1) ^ 2 + (point.2 - lineStart.2) ^ 2)
  else
    jsdiv ((dy * point.1 - dx * point.2 +
            lineEnd.1 * lineStart.2 - lineEnd.2 * lineStart.1) ^ 2)
          (dx ^ 2 + dy ^ 2)

/-- The scan in `simplifyLine` that finds the interior point with maximum
perpendicular distance from the segment joining the first and last point:
for `i` in `[1, length - 2]` it tracks `(maxDistanceSq, maxIndex)`, updating
only on a strictly greater distance, exactly as the source loop does. -/
def findFarthest (points : List Coord) : ℚ × Nat :=
  let first := points.headD (0, 0)
  let lastP := points.getLastD (0, 0)
  (List.range' 1 (points.length - 2)).foldl
    (fun acc i =>
      let d := (perpendicularDistanceSq (points.getD i (0, 0)) first lastP).getD 0
      if acc.1 < d then (d, i) else acc)
    (0, 0)

/-- The comparison `maxDistance > tolerance` of the source, decided on the
squared distance: a nonnegative distance exceeds `tolerance` iff `tolerance`
is negative, or `tolerance` is nonnegative and the squared distance exceeds
`tolerance ^ 2`. -/
def distSqGtTol (distSq tolerance : ℚ) : Bool :=
  if tolerance < 0 then true else decide (distSq > tolerance ^ 2)

/-- `simplifyLine` (Douglas-Peucker) from the preprocessing script, with an
explicit recursion-depth fuel.  `none` models a run that does not terminate
(the source recursion overflows the stack on a negative tolerance applied to
a chain whose interior points all have distance zero); every run of the
source that returns is modelled by `some`. -/
def simplifyLineF : Nat → List Coord → ℚ → Option (List Coord)
  | 0, _, _ => none
  | fuel + 1, points, tolerance =>
    if points.length ≤ 2 then some points
    else
      if distSqGtTol (findFarthest points).1 tolerance then
        match simplifyLineF fuel (points.take ((findFarthest points).2 + 1)) tolerance,
              simplifyLineF fuel (points.drop (findFarthest points).2) tolerance with
        | some left, some right => some (left.dropLast ++ right)
        | _, _ => none
      else
        some [points.headD (0, 0), points.getLastD (0, 0)]

/-- `simplifyLine` run with fuel `length + 1`, which is enough for every
terminating run of the source (each recursive call strictly shortens the
chain whenever the tolerance is nonnegative). -/
def simplifyLine (points : List Coord) (tolerance : ℚ) : Option (List Coord) :=
  simplifyLineF (points.length + 1) points tolerance

/-- A run of the simplifier that never returns: no recursion fuel suffices.
This is how the embedding expresses that the source recursion overflows the
call stack. -/
def simplifyDivergesOn (points : List Coord) (tolerance : ℚ) : Prop :=
  ∀ fuel, simplifyLineF fuel points tolerance = none

/-- The value produced by a terminating run of `simplifyLine`; the default is
never used when the tolerance is nonnegative. -/
def simplifyLineRun (points : List Coord) (tolerance : ℚ) : List Coord :=
  (simplifyLine points tolerance).getD points

/-- `processRing` from the preprocessing script: simplify in the source
projection only when `tolerance > 0`, then convert every surviving point.
The proj4 EPSG:3347 → WGS84 conversion (`convertCoord`) lives in the external
proj4 library, not in this repository, and is abstracted as `convert`. -/
def processRing (convert : Coord → Coord) (ring : List Coord) (tolerance : ℚ) :
    List Coord :=
  let simplified := if tolerance > 0 then simplifyLineRun ring tolerance else ring
  simplified.map convert

/-- `processPolygon`: process every ring of a Polygon coordinate array. -/
def processPolygon (convert : Coord → Coord) (coordinates : List (List Coord))
    (tolerance : ℚ) : List (List Coord) :=
  coordinates.map (fun ring => processRing convert ring tolerance)

/-- `processMultiPolygon`: process every polygon part independently. -/
def processMultiPolygon (convert : Coord → Coord)
    (coordinates : List (List (List Coord))) (tolerance : ℚ) :
    List (List (List Coord)) :=
  coordinates.map (fun polygon => processPolygon convert polygon tolerance)

/-- A GeoJSON geometry as dispatched on by the engine: the two supported
discriminants carry their coordinate arrays; `other` stands for any other
discriminant (Point, LineString, ...), whose payload the engine never reads. -/
inductive Geometry where
  | polygon : List (List Coord) → Geometry
  | multiPolygon : List (List (List Coord)) → Geometry
  | other : String → Geometry
  deriving DecidableEq, Repr

/-- A GeoJSON feature: a property bag plus a geometry. -/
structure Feature where
  properties : FSAProperties
  geometry : Geometry
  deriving DecidableEq, Repr

/-- `processFeature` from the preprocessing script: rebuild the feature with
processed coordinates for Polygon and MultiPolygon, return the feature
unchanged for any other geometry discriminant. -/
def processFeature (convert : Coord → Coord) (feature : Feature) (tolerance : ℚ) :
    Feature :=
  match feature.geometry with
  | Geometry.polygon coords =>
      { properties := feature.properties,
        geometry := Geometry.polygon (processPolygon convert coords tolerance) }
  | Geometry.multiPolygon coords =>
      { properties := feature.properties,
        geometry := Geometry.multiPolygon (processMultiPolygon convert coords tolerance) }
  | Geometry.other _ => feature

/-- The arithmetic-mean fallback of `calculateRingCentroid`:
`ring.reduce((sum, p) => sum + p.lat, 0) / n` and the same for `lng`.
The result is `none` when the ring is empty: JavaScript evaluates `0 / 0`
to NaN there. -/
def ringMean (ring : List LatLng) : Option LatLng :=
  match jsdiv ((ring.map LatLng.lat).sum) (ring.length : ℚ),
        jsdiv ((ring.map LatLng.lng).sum) (ring.length : ℚ) with
  | some la, some ln => some ⟨la, ln⟩
  | _, _ => none

/-- The accumulation loop of `calculateRingCentroid`: for `i` in `[0, n-1]`
pair `ring[i]` with `ring[(i+1) % n]` (wrap-around from the last vertex to
the first, here expressed by zipping with the rotated list) and sum
`cross = lng_i * lat_(i+1) - lng_(i+1) * lat_i`, `(lat_i + lat_(i+1)) * cross`
and `(lng_i + lng_(i+1)) * cross`. -/
def centroidSums (ring : List LatLng) : ℚ × ℚ × ℚ :=
  (ring.zip (ring.drop 1 ++ ring.take 1)).foldl
    (fun acc cn =>
      (acc.1 + (cn.1.lng * cn.2.lat - cn.2.lng * cn.1.lat),
       acc.2.1 + (cn.1.lat + cn.2.lat) * (cn.1.lng * cn.2.lat - cn.2.lng * cn.1.lat),
       acc.2.2 + (cn.1.lng + cn.2.lng) * (cn.1.lng * cn.2.lat - cn.2.lng * cn.1.lat)))
    (0, 0, 0)

/-- `calculateRingCentroid` from `utils/geometry.ts`.  The centroid component
is `none` when the JavaScript result would contain NaN (only possible through
an unguarded division).  The source multiplies by `factor = 1 / (6 * signedArea)`;
over exact rationals that equals dividing by `6 * signedArea`. -/
def calculateRingCentroid (ring : List LatLng) : Option LatLng × ℚ :=
  if ring.length < 3 then (ringMean ring, 0)
  else
    let s := centroidSums ring
    let signedArea := s.1 * (1 / 2)
    if |signedArea| < 1 / 10 ^ 10 then (ringMean ring, 0)
    else
      (match jsdiv s.2.1 (6 * signedArea), jsdiv s.2.2 (6 * signedArea) with
       | some la, some ln => some ⟨la, ln⟩
       | _, _ => none,
       |signedArea|)

/-- `calculatePolygonCenter` from `utils/geometry.ts`: fold over the rings
keeping the centroid of the ring with the largest area (`area > maxArea`,
starting from `maxArea = -1`); `(0, 0)` for an empty ring list. -/
def calculatePolygonCenter (coordinates : List (List LatLng)) : Option LatLng :=
  if coordinates.length = 0 then some ⟨0, 0⟩
  else
    (coordinates.foldl
      (fun acc ring =>
        if acc.2 < (calculateRingCentroid ring).2 then
          ((calculateRingCentroid ring).1, (calculateRingCentroid ring).2)
        else acc)
      ((some ⟨0, 0⟩ : Option LatLng), (-1 : ℚ))).1

/-- `convertFeatureToPolygon` from `utils/geometry.ts`.  The proj4-based
`convertCoordinate` (external library, not in this repository) is abstracted
as `convertLL`.  The result is `none` when the source would throw: a
MultiPolygon feature with zero polygon parts (`coordinates[0]` is undefined
and `calculatePolygonCenter` dereferences it).  The source's input type
restricts geometries to Polygon/MultiPolygon; an `other` geometry, whose
coordinate shape the source's cast would misread, is modelled as `none`. -/
def convertFeatureToPolygon (convertLL : Coord → LatLng) (feature : Feature) :
    Option ConvertedPolygon :=
  match feature.geometry with
  | Geometry.multiPolygon polys =>
      match polys.map (fun polygon => polygon.map (fun ring => ring.map convertLL)) with
      | [] => none
      | firstPolygonRings :: restParts =>
          some { id := feature.properties.gml_id,
                 fsaId := feature.properties.CFSAUID,
                 provinceId := feature.properties.PRUID,
                 provinceName := feature.properties.PRNAME,
                 coordinates := ConvCoords.multi (firstPolygonRings :: restParts),
                 center := calculatePolygonCenter firstPolygonRings,
                 isMultiPolygon := true }
  | Geometry.polygon rings =>
      some { id := feature.properties.gml_id,
             fsaId := feature.properties.CFSAUID,
             provinceId := feature.properties.PRUID,
             provinceName := feature.properties.PRNAME,
             coordinates := ConvCoords.single (rings.map (fun ring => ring.map convertLL)),
             center := calculatePolygonCenter (rings.map (fun ring => ring.map convertLL)),
             isMultiPolygon := false }
  | Geometry.other _ => none

/-- The `[lng, lat] → {lat, lng}` reorder of `convertPreprocessedFeatures`. -/
def reorderLL (c : Coord) : LatLng := ⟨c.2, c.1⟩

/-- `convertPreprocessedFeatures` from `utils/geometry.ts`: reorders raw
pairs without projecting, emits one `ConvertedPolygon` per Polygon or
MultiPolygon feature, and silently skips every other geometry discriminant
(the source loop has no else branch for them).  `none` models the crash on a
MultiPolygon feature with zero polygon parts, which aborts the whole loop. -/
def convertPreprocessedFeatures : List Feature → Option (List ConvertedPolygon)
  | [] => some []
  | feature :: rest =>
      match feature.geometry with
      | Geometry.multiPolygon polygonCoords =>
          match polygonCoords.map (fun polygon => polygon.map (fun ring => ring.map reorderLL)) with
          | [] => none
          | firstPolygonRings :: restParts =>
              (convertPreprocessedFeatures rest).map
                (fun tail =>
                  { id := feature.properties.gml_id,
                    fsaId := feature.properties.CFSAUID,
                    provinceId := feature.properties.PRUID,
                    provinceName := feature.properties.PRNAME,
                    coordinates := ConvCoords.multi (firstPolygonRings :: restParts),
                    center := calculatePolygonCenter firstPolygonRings,
                    isMultiPolygon := true } :: tail)
      | Geometry.polygon polygonCoords =>
          (convertPreprocessedFeatures rest).map
            (fun tail =>
              { id := feature.properties.gml_id,
                fsaId := feature.properties.CFSAUID,
                provinceId := feature.properties.PRUID,
                provinceName := feature.properties.PRNAME,
                coordinates := ConvCoords.single (polygonCoords.map (fun ring => ring.map reorderLL)),
                center := calculatePolygonCenter (polygonCoords.map (fun ring => ring.map reorderLL)),
                isMultiPolygon := false } :: tail)
      | Geometry.other _ => convertPreprocessedFeatures rest

/-- A geometry discriminant the converters emit an output entry for. -/
def isSupported (f : Feature) : Bool :=
  match f.geometry with
  | Geometry.polygon _ => true
  | Geometry.multiPolygon _ => true
  | Geometry.other _ => false

/-- A feature the preprocessed converter can process without crashing: not a
MultiPolygon with zero polygon parts. -/
def noEmptyMulti (f : Feature) : Bool :=
  match f.geometry with
  | Geometry.multiPolygon [] => false
  | _ => true

/-- The `crossProduct` helper of `calculateConvexHull`. -/
def crossProduct (o a b : LatLng) : ℚ :=
  (a.lat - o.lat) * (b.lng - o.lng) - (a.lng - o.lng) * (b.lat - o.lat)

/-- The lat-then-lng comparator of `calculateConvexHull`'s sort as a Boolean
total preorder: the source's numeric comparator sorts ascending by `lat`,
ties broken by `lng`.  Ties in both fields are equal points, so every sort
agreeing with this preorder produces the same list as the JavaScript sort. -/
def hullLe (a b : LatLng) : Bool :=
  if a.lat = b.lat then decide (a.lng ≤ b.lng) else decide (a.lat < b.lat)

/-- The pop-then-push loop body shared by the two chain builds of
`calculateConvexHull`: pop while the last two chain points and the candidate
make a non-left turn (`crossProduct ≤ 0`), then push the candidate.  The
chain is stored reversed (head = most recently pushed point). -/
def chainStep (p : LatLng) : List LatLng → List LatLng
  | b :: a :: rest =>
      if crossProduct a b p ≤ 0 then chainStep p (a :: rest) else p :: b :: a :: rest
  | chain => p :: chain

/-- One full chain build (the source's for-loop over the scan order),
returned in scan order (first pushed first). -/
def buildChain (pts : List LatLng) : List LatLng :=
  (pts.foldl (fun chain p => chainStep p chain) []).reverse

/-- `calculateConvexHull` from `utils/geometry.ts` (Andrew's monotone chain):
sort by lat then lng, build the lower chain over the sorted points and the
upper chain over the reversed sorted points, drop the lower chain's last
point (it duplicates the upper chain's first), and concatenate. -/
def calculateConvexHull (points : List LatLng) : List LatLng :=
  if points.length < 3 then points
  else
    (buildChain (points.mergeSort hullLe)).dropLast ++
      buildChain (points.mergeSort hullLe).reverse

/-- Lexicographic order on points: by `lat`, ties broken by `lng` (the
propositional counterpart of the sort comparator `hullLe`). -/
def lexLe (a b : LatLng) : Prop :=
  a.lat < b.lat ∨ (a.lat = b.lat ∧ a.lng ≤ b.lng)

/-- Strict lexicographic order on points. -/
def lexLt (a b : LatLng) : Prop :=
  a.lat < b.lat ∨ (a.lat = b.lat ∧ a.lng < b.lng)

/-- A point as a vector of `ℚ × ℚ`, for convex-hull membership statements. -/
def toVec (p : LatLng) : ℚ × ℚ := (p.lat, p.lng)

/-- Pointwise negation; conjugating by it swaps the roles of the lower and
upper chain builds. -/
def negP (p : LatLng) : LatLng := ⟨-p.lat, -p.lng⟩

/-- The vertex set of a chain, as a set of vectors. -/
def vset (C : List LatLng) : Set (ℚ × ℚ) := {x | ∃ v ∈ C, toVec v = x}

/-- Strict left-turn condition along a build stack (head = most recent point):
each consecutive triple, read bottom-up, turns strictly left.  The builds
maintain this by popping every non-left turn. -/
def StackConvex : List LatLng → Prop
  | p :: q :: r :: rest => 0 < crossProduct r q p ∧ StackConvex (q :: r :: rest)
  | _ => True

/-- The stack is descending in `lexLe` from head to bottom. -/
def StackSorted (s : List LatLng) : Prop :=
  List.Chain' (fun b a => lexLe a b) s

/-- `q` lies weakly to the left of every (bottom-to-top directed) edge of the
stack. -/
def StackAbove (q : LatLng) (s : List LatLng) : Prop :=
  List.Chain' (fun b a => 0 ≤ crossProduct a b q) s

/-- The raw build stack (reversed chain) of one scan. -/
def buildStack (pts : List LatLng) : List LatLng :=
  pts.foldl (fun chain p => chainStep p chain) []

/-- A concrete feature with an unsupported geometry discriminant. -/
def samplePointFeature : Feature :=
  { properties := ⟨"g", "c", "p", "n"⟩, geometry := Geometry.other "Point" }

/-- A concrete feature with an (empty) Polygon geometry. -/
def samplePolyFeature : Feature :=
  { properties := ⟨"g", "c", "p", "n"⟩, geometry := Geometry.polygon [] }

/-- `boundsIntersect` returns true exactly when no separating direction exists. -/
theorem boundsIntersect_true_iff (a b : Bounds) :
    boundsIntersect a b = true ↔
      ¬(a.south > b.north ∨ a.north < b.south ∨ a.west > b.east ∨ a.east < b.west) := by
  have h : boundsIntersect a b =
      !((decide (a.south > b.north) || decide (a.north < b.south)) ||
        (decide (a.west > b.east) || decide (a.east < b.west))) := by
    unfold boundsIntersect
    split_ifs with h1 h2 <;> simp_all
    · intro hsn hns hwe
      rcases h1 with h | h <;> linarith
    · intro hwe
      rcases h2 with h | h <;> linarith
  rw [h]
  simp only [Bool.not_eq_true', Bool.or_eq_false_iff, decide_eq_false_iff_not, not_or]
  tauto

/-- C6: `boundsIntersect a b` is false exactly when `a.south > b.north` or
`a.north < b.south` or `a.west > b.east` or `a.east < b.west`, and
`boundsIntersect` is symmetric. -/
theorem boundsIntersect_char_and_symm (a b : Bounds) :
    (boundsIntersect a b = false ↔
      (a.south > b.north ∨ a.north < b.south ∨ a.west > b.east ∨ a.east < b.west)) ∧
    boundsIntersect a b = boundsIntersect b a := by
  have h := boundsIntersect_true_iff a b
  constructor
  · constructor
    · intro hb
      by_contra hd
      have ht := h.mpr hd
      rw [hb] at ht
      exact Bool.false_ne_true ht
    · intro hd
      cases hbv : boundsIntersect a b with
      | false => rfl
      | true => exact absurd hd (h.mp hbv)
  · rw [Bool.eq_iff_iff, boundsIntersect_true_iff, boundsIntersect_true_iff]
    simp only [gt_iff_lt]
    tauto

/-- Both divisions reachable from `perpendicularDistanceSq` are guarded: the
result is always a nonnegative rational, never `none`. -/
theorem perpendicularDistanceSq_isSome (p a b : Coord) :
    ∃ q, perpendicularDistanceSq p a b = some q ∧ 0 ≤ q := by
  simp only [perpendicularDistanceSq, jsdiv]
  split_ifs with h1 h2
  · exact ⟨_, rfl, by positivity⟩
  · exfalso
    have hx : (b.1 - a.1) ^ 2 = 0 := by
      nlinarith [sq_nonneg (b.1 - a.1), sq_nonneg (b.2 - a.2)]
    have hy : (b.2 - a.2) ^ 2 = 0 := by
      nlinarith [sq_nonneg (b.1 - a.1), sq_nonneg (b.2 - a.2)]
    exact h1 ⟨pow_eq_zero_iff (two_ne_zero).symm.symm |>.mp hx,
              pow_eq_zero_iff (two_ne_zero).symm.symm |>.mp hy⟩
  · refine ⟨_, rfl, ?_⟩
    have hden : (0 : ℚ) ≤ (b.1 - a.1) ^ 2 + (b.2 - a.2) ^ 2 := by positivity
    positivity

/-- Fold-invariant induction helper. -/
theorem foldl_invariant {α β : Type} (f : β → α → β) (l : List α) (init : β)
    (P : β → Prop) (h0 : P init) (hstep : ∀ b a, a ∈ l → P b → P (f b a)) :
    P (l.foldl f init) := by
  induction l generalizing init with
  | nil => exact h0
  | cons a t ih =>
      exact ih (f init a) (hstep init a (List.mem_cons_self a t) h0)
        (fun b x hx hb => hstep b x (List.mem_cons_of_mem a hx) hb)

/-- The max-distance scan either never updates (result `(0, 0)`), or ends at
a strictly positive squared distance attained at an interior index. -/
theorem findFarthest_cases (points : List Coord) :
    findFarthest points = (0, 0) ∨
      (0 < (findFarthest points).1 ∧ 1 ≤ (findFarthest points).2 ∧
        (findFarthest points).2 ≤ points.length - 2) := by
  simp only [findFarthest]
  refine foldl_invariant _ _ _
      (fun acc => acc = (0, 0) ∨
        (0 < acc.1 ∧ 1 ≤ acc.2 ∧ acc.2 ≤ points.length - 2)) (Or.inl rfl) ?_
  intro b i hi hb
  have hmem : 1 ≤ i ∧ i < 1 + (points.length - 2) := List.mem_range'_1.mp hi
  split
  · next h =>
      right
      have hb1 : 0 ≤ b.1 := by
        rcases hb with rfl | ⟨h1, _⟩
        · exact le_refl 0
        · exact le_of_lt h1
      exact ⟨lt_of_le_of_lt hb1 h, hmem.1, by omega⟩
  · next h => exact hb

/-- `dropLast` preserves the sublist relation. -/
theorem sublist_dropLast {α : Type} {l m : List α} (h : l.Sublist m) :
    l.dropLast.Sublist m.dropLast := by
  induction h with
  | slnil => exact List.Sublist.refl _
  | cons a h ih =>
      rename_i l' m'
      cases m' with
      | nil => cases h; exact List.Sublist.refl _
      | cons b t =>
          rw [List.dropLast_cons_of_ne_nil (List.cons_ne_nil b t)]
          exact ih.trans (List.sublist_cons_self a _)
  | cons₂ a h ih =>
      rename_i l' m'
      cases m' with
      | nil =>
          cases h
          simp
      | cons b t =>
          cases l' with
          | nil => simp
          | cons c s =>
              rw [List.dropLast_cons_of_ne_nil (List.cons_ne_nil c s),
                  List.dropLast_cons_of_ne_nil (List.cons_ne_nil b t)]
              exact ih.cons₂ a

/-- `head?` is unchanged by `dropLast` on a list with at least two entries. -/
theorem head?_dropLast_of_two_le {α : Type} (l : List α) (h : 2 ≤ l.length) :
    l.dropLast.head? = l.head? := by
  match l, h with
  | a :: b :: t, _ => simp

/-- Main inductive specification of the fueled simplifier: with nonnegative
tolerance and fuel exceeding the chain length, it returns a sublist of the
input that keeps the first and last points and (for chains of length at least
two) has at least two points. -/
theorem simplifyLineF_spec :
    ∀ (fuel : Nat) (points : List Coord) (tolerance : ℚ),
      0 ≤ tolerance → points.length < fuel →
      ∃ out, simplifyLineF fuel points tolerance = some out ∧
        out.Sublist points ∧
        out.head? = points.head? ∧
        out.getLast? = points.getLast? ∧
        (2 ≤ points.length → 2 ≤ out.length) := by
  intro fuel
  induction fuel with
  | zero => intro points t ht hlen; omega
  | succ n ih =>
    intro points t ht hlen
    rw [simplifyLineF]
    by_cases hsmall : points.length ≤ 2
    · rw [if_pos hsmall]
      exact ⟨points, rfl, List.Sublist.refl _, rfl, rfl, fun h => h⟩
    · rw [if_neg hsmall]
      push_neg at hsmall
      by_cases hgt : distSqGtTol (findFarthest points).1 t = true
      · have hpos : 0 < (findFarthest points).1 := by
          unfold distSqGtTol at hgt
          rw [if_neg (not_lt.mpr ht)] at hgt
          have h2 := of_decide_eq_true hgt
          nlinarith [sq_nonneg t]
        rcases findFarthest_cases points with hm | ⟨_, hk1, hk2⟩
        · rw [hm] at hpos
          norm_num at hpos
        · have hlenle : points.length ≤ n := by omega
          have htl : (points.take ((findFarthest points).2 + 1)).length =
              (findFarthest points).2 + 1 := by
            rw [List.length_take]
            omega
          have hdl : (points.drop (findFarthest points).2).length =
              points.length - (findFarthest points).2 := List.length_drop _ _
          obtain ⟨left, hleft, hlsub, hlhead, hllast, hllen⟩ :=
            ih (points.take ((findFarthest points).2 + 1)) t ht (by omega)
          obtain ⟨right, hright, hrsub, hrhead, hrlast, hrlen⟩ :=
            ih (points.drop (findFarthest points).2) t ht (by omega)
          have hl2 : 2 ≤ left.length := hllen (by omega)
          have hr2 : 2 ≤ right.length := hrlen (by omega)
          refine ⟨left.dropLast ++ right, ?_, ?_, ?_, ?_, ?_⟩
          · rw [if_pos hgt, hleft, hright]
          · have h1 : left.dropLast.Sublist (points.take (findFarthest points).2) := by
              have h2 := sublist_dropLast hlsub
              have h3 : (List.take ((findFarthest points).2 + 1) points).dropLast =
                  List.take (findFarthest points).2 points := by
                rw [List.dropLast_eq_take, htl, Nat.add_sub_cancel, List.take_take,
                  Nat.min_eq_left (Nat.le_succ _)]
              rwa [h3] at h2
            have h3 := List.Sublist.append h1 hrsub
            rwa [List.take_append_drop] at h3
          · have hld : ¬ left.dropLast = [] := by
              have : left.dropLast.length = left.length - 1 := List.length_dropLast left
              intro hc
              rw [hc] at this
              simp at this
              omega
            rw [List.head?_append_of_ne_nil _ hld,
                head?_dropLast_of_two_le left hl2, hlhead, List.head?_take]
            rw [if_neg (Nat.succ_ne_zero _)]
          · have hrd : ¬ right = [] := by
              intro hc
              rw [hc] at hr2
              simp at hr2
            rw [List.getLast?_append_of_ne_nil _ hrd, hrlast, List.getLast?_drop]
            rw [if_neg (by omega)]
          · intro _
            rw [List.length_append]
            omega
      · rw [if_neg hgt]
        cases points with
        | nil => simp at hsmall
        | cons p rest =>
            have hrest : ¬ rest = [] := by
              intro hc
              rw [hc] at hsmall
              simp at hsmall
            refine ⟨[p, (p :: rest).getLast (List.cons_ne_nil p rest)], ?_, ?_, ?_, ?_, ?_⟩
            · rw [List.headD_cons, List.getLastD_eq_getLast?,
                  List.getLast?_eq_getLast _ (List.cons_ne_nil p rest)]
              rfl
            · refine List.Sublist.cons₂ p ?_
              rw [List.singleton_sublist, List.getLast_cons hrest]
              exact List.getLast_mem hrest
            · rfl
            · rw [List.getLast?_eq_getLast _ (List.cons_ne_nil p rest)]
              rfl
            · intro _
              simp

/-- C2: with an absent (null) viewport the culling filter returns the full
`polygonsWithBounds` list, and filtering by bounds intersection happens only
when a viewport rectangle is present. -/
theorem visiblePolygons_fail_open (ps : List PolygonWithBounds) :
    visiblePolygons none ps = ps ∧
    ∀ b : Bounds, visiblePolygons (some b) ps =
      ps.filter (fun p => boundsIntersect p.bounds b) := by
  exact ⟨rfl, fun _ => rfl⟩


/-- C3 (amended): for every polyline and every nonnegative tolerance the
simplifier returns an output that is a subsequence of the input (its points
appear in the input in the same relative order), contains the input's first
and last points, and has length at most the input's length.  (For a negative
tolerance the source recursion can fail to terminate; see the
counterexample theorem.) -/
theorem simplifyLine_subsequence (points : List Coord) (tolerance : ℚ)
    (ht : 0 ≤ tolerance) :
    ∃ out, simplifyLine points tolerance = some out ∧
      out.Sublist points ∧ out.head? = points.head? ∧
      out.getLast? = points.getLast? ∧ out.length ≤ points.length := by
  obtain ⟨out, h1, h2, h3, h4, _⟩ :=
    simplifyLineF_spec (points.length + 1) points tolerance ht (Nat.lt_succ_self _)
  exact ⟨out, h1, h2, h3, h4, h2.length_le⟩

/-- Witness for the amended C3 theorem at the spec's concrete scenario
chain [(0,0),(5,0.1),(10,0),(15,5)] with tolerance 1. -/
theorem simplifyLine_subsequence_witness :
    ∃ out, simplifyLine [((0 : ℚ), (0 : ℚ)), (5, 1/10), (10, 0), (15, 5)] 1 = some out ∧
      out.Sublist [((0 : ℚ), (0 : ℚ)), (5, 1/10), (10, 0), (15, 5)] ∧
      out.head? = ([((0 : ℚ), (0 : ℚ)), (5, 1/10), (10, 0), (15, 5)] : List Coord).head? ∧
      out.getLast? = ([((0 : ℚ), (0 : ℚ)), (5, 1/10), (10, 0), (15, 5)] : List Coord).getLast? ∧
      out.length ≤ ([((0 : ℚ), (0 : ℚ)), (5, 1/10), (10, 0), (15, 5)] : List Coord).length :=
  simplifyLine_subsequence [((0 : ℚ), (0 : ℚ)), (5, 1/10), (10, 0), (15, 5)] 1 (by norm_num)

/-- C3 counterexample: with tolerance -1 on the collinear chain
[(0,0),(1,0),(2,0)] every interior distance is zero, so the scan never
updates, maxIndex stays 0, and since 0 > -1 the right recursive call repeats
the entire input: the source recursion never returns (stack overflow), so
simplifyLine produces no output at all for this input, refuting the claim
for arbitrary tolerances. -/
theorem simplifyLine_neg_tolerance_diverges :
    simplifyDivergesOn [((0 : ℚ), (0 : ℚ)), (1, 0), (2, 0)] (-1) := by
  intro fuel
  induction fuel with
  | zero => rfl
  | succ n ih =>
      have hf : findFarthest [((0 : ℚ), (0 : ℚ)), (1, 0), (2, 0)] = (0, 0) := by
        have hr : List.range' 1 1 = [1] := rfl
        norm_num [findFarthest, perpendicularDistanceSq, jsdiv, hr]
      have hg : distSqGtTol (0 : ℚ) (-1) = true := by decide
      rw [simplifyLineF]
      rw [if_neg (by decide), hf]
      simp only [hg, if_true]
      rw [List.drop_zero, ih]
      rcases simplifyLineF n (List.take (0 + 1) [((0 : ℚ), (0 : ℚ)), (1, 0), (2, 0)]) (-1) with _ | l <;> rfl

/-- C4: for every ring and every tolerance at most 0, processRing does not
invoke the simplifier: the output is exactly the input point sequence (same
points, same count, same order), each point then reprojected by `convert`. -/
theorem processRing_nonpos_tolerance (convert : Coord → Coord) (ring : List Coord)
    (tolerance : ℚ) (ht : tolerance ≤ 0) :
    processRing convert ring tolerance = ring.map convert ∧
    (processRing convert ring tolerance).length = ring.length := by
  have h : processRing convert ring tolerance = ring.map convert := by
    simp only [processRing]
    rw [if_neg (not_lt.mpr ht)]
  exact ⟨h, by rw [h, List.length_map]⟩

/-- Witness for C4 at tolerance 0 on a collinear ring (whose middle point a
tolerance-0 run of the simplifier itself would drop). -/
theorem processRing_nonpos_tolerance_witness :
    processRing id [((0 : ℚ), (0 : ℚ)), (1, 0), (2, 0)] 0 =
      ([((0 : ℚ), (0 : ℚ)), (1, 0), (2, 0)] : List Coord).map id ∧
    (processRing id [((0 : ℚ), (0 : ℚ)), (1, 0), (2, 0)] 0).length =
      ([((0 : ℚ), (0 : ℚ)), (1, 0), (2, 0)] : List Coord).length :=
  processRing_nonpos_tolerance id [((0 : ℚ), (0 : ℚ)), (1, 0), (2, 0)] 0 (le_refl 0)


/-- C8: the square ring [(0,0),(0,10),(10,10),(10,0)] has centroid (5,5) and
area 100 under the shoelace/signed-area centroid formula with wrap-around
from the last vertex to the first. -/
theorem calculateRingCentroid_square :
    calculateRingCentroid [⟨0, 0⟩, ⟨0, 10⟩, ⟨10, 10⟩, ⟨10, 0⟩] = (some ⟨5, 5⟩, 100) := by
  norm_num [calculateRingCentroid, centroidSums, jsdiv, List.zip, List.zipWith,
    List.foldl, abs]

/-- C5 counterexample: on the empty ring (which has fewer than 3 points) the
degenerate fallback divides by `n = 0`, so the JavaScript result is
`{lat: NaN, lng: NaN}` (embedded as `none`), not the arithmetic mean of the
ring's points, refuting the claim for every ring with fewer than 3 points. -/
theorem calculateRingCentroid_empty_ring_nan :
    calculateRingCentroid ([] : List LatLng) = (none, 0) := by
  norm_num [calculateRingCentroid, ringMean, jsdiv]

/-- C5 (amended): for every nonempty ring the mean fallback is well defined,
rings with fewer than 3 points and rings whose shoelace area magnitude is
below 1e-10 yield the arithmetic mean with area 0, the returned centroid is
always finite (never NaN/Infinity), and every division in
`perpendicularDistanceSq` is guarded.  Only the empty ring hits the
unguarded `0 / 0` mean. -/
theorem calculateRingCentroid_guarded (ring : List LatLng) (hne : ring ≠ []) :
    (∃ c, ringMean ring = some c) ∧
    (ring.length < 3 → calculateRingCentroid ring = (ringMean ring, 0)) ∧
    (3 ≤ ring.length → |(centroidSums ring).1 * (1 / 2)| < 1 / 10 ^ 10 →
      calculateRingCentroid ring = (ringMean ring, 0)) ∧
    (∃ c a, calculateRingCentroid ring = (some c, a)) ∧
    (∀ p a b : Coord, ∃ q, perpendicularDistanceSq p a b = some q) := by
  have hn : (ring.length : ℚ) ≠ 0 := by
    have h0 : 0 < ring.length := List.length_pos.mpr hne
    exact Nat.cast_ne_zero.mpr (Nat.pos_iff_ne_zero.mp h0)
  have hmean : ∃ c, ringMean ring = some c := by
    simp only [ringMean, jsdiv]
    rw [if_neg hn, if_neg hn]
    exact ⟨_, rfl⟩
  refine ⟨hmean, ?_, ?_, ?_, ?_⟩
  · intro hlt
    simp only [calculateRingCentroid]
    rw [if_pos hlt]
  · intro hge hsm
    simp only [calculateRingCentroid]
    rw [if_neg (not_lt.mpr hge), if_pos hsm]
  · by_cases hlt : ring.length < 3
    · obtain ⟨c, hc⟩ := hmean
      refine ⟨c, 0, ?_⟩
      simp only [calculateRingCentroid]
      rw [if_pos hlt, hc]
    · by_cases hsm : |(centroidSums ring).1 * (1 / 2)| < 1 / 10 ^ 10
      · obtain ⟨c, hc⟩ := hmean
        refine ⟨c, 0, ?_⟩
        simp only [calculateRingCentroid]
        rw [if_neg hlt, if_pos hsm, hc]
      · have hsa : (centroidSums ring).1 * (1 / 2) ≠ 0 := by
          intro hz
          rw [hz] at hsm
          norm_num at hsm
        have h6 : 6 * ((centroidSums ring).1 * (1 / 2)) ≠ 0 := by
          intro hz
          exact hsa (by linarith [hz] )
        simp only [calculateRingCentroid, jsdiv]
        rw [if_neg hlt, if_neg hsm, if_neg h6, if_neg h6]
        exact ⟨_, _, rfl⟩
  · intro p a b
    obtain ⟨q, hq, _⟩ := perpendicularDistanceSq_isSome p a b
    exact ⟨q, hq⟩

/-- Witness for the amended C5 theorem at the one-point ring [(1,2)]. -/
theorem calculateRingCentroid_guarded_witness :
    calculateRingCentroid [(⟨1, 2⟩ : LatLng)] = (ringMean [(⟨1, 2⟩ : LatLng)], 0) ∧
    (∃ c a, calculateRingCentroid [(⟨1, 2⟩ : LatLng)] = (some c, a)) :=
  ⟨(calculateRingCentroid_guarded [⟨1, 2⟩] (by simp)).2.1 (by norm_num),
   (calculateRingCentroid_guarded [⟨1, 2⟩] (by simp)).2.2.2.1⟩

/-- C1 counterexample: `convertPreprocessedFeatures` does not emit an entry
for a feature whose geometry discriminant is neither Polygon nor
MultiPolygon — the source loop has no else branch — so a 1-feature input
yields a 0-entry output, refuting one-entry-per-input for this path. -/
theorem convertPreprocessedFeatures_drops_unsupported :
    convertPreprocessedFeatures [samplePointFeature] = some [] ∧
    [samplePointFeature].length = 1 :=
  ⟨rfl, rfl⟩

/-- C1 (amended): `processFeature` returns a feature with an unsupported
geometry discriminant unchanged (so the projectAndSimplify path maps one
output feature per input feature), while `convertPreprocessedFeatures` emits
exactly one entry per Polygon/MultiPolygon feature and omits unsupported
features (provided no MultiPolygon feature has zero parts, which would
crash the source). -/
theorem processFeature_passthrough_counts :
    (∀ (convert : Coord → Coord) (f : Feature) (t : ℚ), isSupported f = false →
        processFeature convert f t = f) ∧
    (∀ (convert : Coord → Coord) (fs : List Feature) (t : ℚ),
        (fs.map (fun f => processFeature convert f t)).length = fs.length) ∧
    (∀ fs : List Feature, (∀ f ∈ fs, noEmptyMulti f = true) →
        ∃ out, convertPreprocessedFeatures fs = some out ∧
          out.length = (fs.filter isSupported).length) := by
  refine ⟨?_, ?_, ?_⟩
  · rintro convert ⟨props, geom⟩ t hf
    cases geom with
    | polygon c => simp [isSupported] at hf
    | multiPolygon c => simp [isSupported] at hf
    | other s => rfl
  · intro convert fs t
    rw [List.length_map]
  · intro fs
    induction fs with
    | nil => exact fun _ => ⟨[], rfl, rfl⟩
    | cons f rest ih =>
        intro hwf
        obtain ⟨out, hout, hlen⟩ := ih (fun g hg => hwf g (List.mem_cons_of_mem f hg))
        rcases f with ⟨props, geom⟩
        cases geom with
        | polygon c =>
            have hstep : convertPreprocessedFeatures (Feature.mk props (Geometry.polygon c) :: rest) =
                (convertPreprocessedFeatures rest).map
                  (fun tail =>
                    { id := props.gml_id, fsaId := props.CFSAUID,
                      provinceId := props.PRUID, provinceName := props.PRNAME,
                      coordinates := ConvCoords.single
                        (c.map (fun ring => ring.map reorderLL)),
                      center := calculatePolygonCenter
                        (c.map (fun ring => ring.map reorderLL)),
                      isMultiPolygon := false } :: tail) := rfl
            rw [hstep, hout]
            exact ⟨_, rfl, by simp [List.filter_cons, isSupported, hlen]⟩
        | multiPolygon c =>
            have hc := hwf (Feature.mk props (Geometry.multiPolygon c)) (List.mem_cons_self _ _)
            cases c with
            | nil => simp [noEmptyMulti] at hc
            | cons p0 parts =>
                have hstep : convertPreprocessedFeatures
                    (Feature.mk props (Geometry.multiPolygon (p0 :: parts)) :: rest) =
                    (convertPreprocessedFeatures rest).map
                      (fun tail =>
                        { id := props.gml_id, fsaId := props.CFSAUID,
                          provinceId := props.PRUID, provinceName := props.PRNAME,
                          coordinates := ConvCoords.multi
                            ((p0.map (fun ring => ring.map reorderLL)) ::
                              parts.map (fun polygon => polygon.map (fun ring => ring.map reorderLL))),
                          center := calculatePolygonCenter
                            (p0.map (fun ring => ring.map reorderLL)),
                          isMultiPolygon := true } :: tail) := rfl
                rw [hstep, hout]
                exact ⟨_, rfl, by simp [List.filter_cons, isSupported, hlen]⟩
        | other str =>
            have hstep : convertPreprocessedFeatures (Feature.mk props (Geometry.other str) :: rest) =
                convertPreprocessedFeatures rest := rfl
            rw [hstep, hout]
            exact ⟨out, rfl, by simp [List.filter_cons, isSupported, hlen]⟩

/-- Witness for the amended C1 theorem: an unsupported feature passes through
`processFeature` unchanged, and a mixed batch (one Polygon, one unsupported)
produces exactly one entry from `convertPreprocessedFeatures`. -/
theorem processFeature_passthrough_counts_witness :
    processFeature id samplePointFeature 0 = samplePointFeature ∧
    ∃ out, convertPreprocessedFeatures [samplePolyFeature, samplePointFeature] = some out ∧
      out.length = ([samplePolyFeature, samplePointFeature].filter isSupported).length :=
  ⟨processFeature_passthrough_counts.1 id samplePointFeature 0 rfl,
   processFeature_passthrough_counts.2.2 [samplePolyFeature, samplePointFeature]
     (by intro f hf; fin_cases hf <;> rfl)⟩

/-- C10: both conversion entry points compute a MultiPolygon feature's center
from the rings of the first polygon part only (`coordinates[0]`), passing
just those rings to `calculatePolygonCenter`; the formula does not mention
the remaining parts, so they never influence the returned center. -/
theorem multiPolygon_center_from_first_part (convertLL : Coord → LatLng)
    (props : FSAProperties) (p0 : List (List Coord))
    (parts : List (List (List Coord))) (rest : List Feature) :
    (∃ cp, convertFeatureToPolygon convertLL
        { properties := props, geometry := Geometry.multiPolygon (p0 :: parts) } = some cp ∧
      cp.center = calculatePolygonCenter (p0.map (fun ring => ring.map convertLL))) ∧
    (∃ cp, convertPreprocessedFeatures
        ({ properties := props, geometry := Geometry.multiPolygon (p0 :: parts) } :: rest) =
          (convertPreprocessedFeatures rest).map (fun tail => cp :: tail) ∧
      cp.center = calculatePolygonCenter (p0.map (fun ring => ring.map reorderLL))) :=
  ⟨⟨_, rfl, rfl⟩, ⟨_, rfl, rfl⟩⟩

theorem lexLe_refl (a : LatLng) : lexLe a a := Or.inr ⟨rfl, le_refl _⟩

theorem lexLe_trans {a b c : LatLng} (h1 : lexLe a b) (h2 : lexLe b c) : lexLe a c := by
  rcases h1 with h1 | ⟨h1, h1l⟩ <;> rcases h2 with h2 | ⟨h2, h2l⟩
  · exact Or.inl (lt_trans h1 h2)
  · exact Or.inl (h2 ▸ h1)
  · exact Or.inl (h1 ▸ h2)
  · exact Or.inr ⟨h1.trans h2, h1l.trans h2l⟩

theorem lexLe_antisymm {a b : LatLng} (h1 : lexLe a b) (h2 : lexLe b a) : a = b := by
  rcases h1 with h1 | ⟨h1, h1l⟩ <;> rcases h2 with h2 | ⟨h2, h2l⟩
  · exact absurd (lt_trans h1 h2) (lt_irrefl _)
  · exact absurd h1 (h2 ▸ lt_irrefl _)
  · exact absurd h2 (h1 ▸ lt_irrefl _)
  · cases a; cases b
    simp_all
    exact le_antisymm h1l h2l

theorem lexLe_total (a b : LatLng) : lexLe a b ∨ lexLe b a := by
  rcases lt_trichotomy a.lat b.lat with h | h | h
  · exact Or.inl (Or.inl h)
  · rcases le_total a.lng b.lng with hl | hl
    · exact Or.inl (Or.inr ⟨h, hl⟩)
    · exact Or.inr (Or.inr ⟨h.symm, hl⟩)
  · exact Or.inr (Or.inl h)

theorem lexLe_lat {a b : LatLng} (h : lexLe a b) : a.lat ≤ b.lat := by
  rcases h with h | ⟨h, _⟩
  · exact le_of_lt h
  · exact le_of_eq h

theorem hullLe_iff_lexLe (a b : LatLng) : hullLe a b = true ↔ lexLe a b := by
  unfold hullLe lexLe
  split_ifs with h <;> simp [h]

theorem crossProduct_self_right (o a : LatLng) : crossProduct o a a = 0 := by
  unfold crossProduct; ring

theorem crossProduct_self_mid (o b : LatLng) : crossProduct o o b = 0 := by
  unfold crossProduct; ring

theorem crossProduct_swap (o a b : LatLng) : crossProduct o a b = -crossProduct o b a := by
  unfold crossProduct; ring

theorem crossProduct_negP (o a b : LatLng) :
    crossProduct (negP o) (negP a) (negP b) = crossProduct o a b := by
  unfold crossProduct negP; ring

theorem lexLe_negP {a b : LatLng} : lexLe (negP a) (negP b) ↔ lexLe b a := by
  unfold lexLe negP
  constructor
  · rintro (h | ⟨h, hl⟩)
    · exact Or.inl (by dsimp at h; linarith)
    · exact Or.inr ⟨by dsimp at h; linarith, by dsimp at hl; linarith⟩
  · rintro (h | ⟨h, hl⟩)
    · exact Or.inl (by dsimp; linarith)
    · exact Or.inr ⟨by dsimp; linarith, by dsimp; linarith⟩

theorem negP_negP (a : LatLng) : negP (negP a) = a := by
  cases a; simp [negP]

theorem crossProduct_self_last (o a : LatLng) : crossProduct o a o = 0 := by
  unfold crossProduct; ring

/-- Skipping the middle point of a lat-monotone quadruple preserves strict
left turns (drop the third point). -/
theorem step_abd {a b c d : LatLng}
    (hab : a.lat ≤ b.lat) (hbc : b.lat ≤ c.lat) (hcd : c.lat ≤ d.lat)
    (h1 : 0 < crossProduct a b c) (h2 : 0 < crossProduct b c d) :
    0 < crossProduct a b d := by
  rcases eq_or_lt_of_le hbc with heq | hlt
  · exfalso
    have e1 : crossProduct a b c = (b.lat - a.lat) * (c.lng - b.lng) := by
      unfold crossProduct
      rw [← heq]
      ring
    have e2 : crossProduct b c d = -((c.lng - b.lng) * (d.lat - b.lat)) := by
      unfold crossProduct
      rw [← heq]
      ring
    have hba : 0 < b.lat - a.lat := by
      rcases eq_or_lt_of_le hab with he | hl
      · rw [e1, ← he, sub_self, zero_mul] at h1
        exact absurd h1 (lt_irrefl 0)
      · linarith
    have hcb : 0 < c.lng - b.lng := by
      by_contra hc
      push_neg at hc
      nlinarith [h1, e1]
    nlinarith [h2, e2]
  · have hid : crossProduct a b d * (c.lat - b.lat) =
        crossProduct a b c * (d.lat - b.lat) + crossProduct b c d * (b.lat - a.lat) := by
      unfold crossProduct
      ring
    nlinarith [hid, hlt, mul_pos h1 (show (0:ℚ) < d.lat - b.lat by linarith),
      mul_nonneg (le_of_lt h2) (show (0:ℚ) ≤ b.lat - a.lat by linarith)]

/-- The key pop-step transfer: if `q` is weakly left and `p` weakly right of
the old stack edge `(u, r)`, and the points are lex-ordered as in the scan,
then `q` is weakly left of the new edge `(u, p)`. -/
theorem obligUp {u r p q : LatLng}
    (hur : lexLe u r) (hrp : lexLe r p) (huq : lexLe u q) (hqp : lexLe q p)
    (hq : 0 ≤ crossProduct u r q) (hp : crossProduct u r p ≤ 0)
    (hru : u = r → lexLe q u) :
    0 ≤ crossProduct u p q := by
  by_cases hequ : u = r
  · have hqu := lexLe_antisymm (hru hequ) huq
    rw [← hqu]
    rw [crossProduct_self_last]
  · rcases eq_or_lt_of_le (lexLe_lat hur) with heq | hlt
    · have hlng : u.lng ≤ r.lng := by
        rcases hur with h | ⟨_, h⟩
        · exact absurd h (heq ▸ lt_irrefl _)
        · exact h
      have e1 : crossProduct u r q = -((r.lng - u.lng) * (q.lat - u.lat)) := by
        unfold crossProduct
        rw [← heq]
        ring
      have hlng' : u.lng < r.lng := by
        rcases eq_or_lt_of_le hlng with he | hl
        · exact absurd (by cases u; cases r; simp_all : u = r) hequ
        · exact hl
      have hqlat : q.lat = u.lat := by
        have h1 := lexLe_lat huq
        nlinarith [hq, e1]
      have hqlng : u.lng ≤ q.lng := by
        rcases huq with h | ⟨_, h⟩
        · exact absurd h (hqlat ▸ lt_irrefl _)
        · exact h
      have e2 : crossProduct u p q = (p.lat - u.lat) * (q.lng - u.lng) := by
        unfold crossProduct
        rw [hqlat]
        ring
      rw [e2]
      have hpl : u.lat ≤ p.lat := le_trans (lexLe_lat hur) (lexLe_lat hrp)
      exact mul_nonneg (by linarith) (by linarith)
    · have hid : crossProduct u p q * (r.lat - u.lat) =
          crossProduct u r q * (p.lat - u.lat) + (-(crossProduct u r p)) * (q.lat - u.lat) := by
        unfold crossProduct
        ring
      have hpu : u.lat ≤ p.lat := le_trans (lexLe_lat hur) (lexLe_lat hrp)
      have hqu : u.lat ≤ q.lat := lexLe_lat huq
      nlinarith [hid, hlt, mul_nonneg hq (show (0:ℚ) ≤ p.lat - u.lat by linarith),
        mul_nonneg (neg_nonneg.mpr hp) (show (0:ℚ) ≤ q.lat - u.lat by linarith)]

/-- Transfer for points lex-below the push site: if `q` is weakly left and
`p` strictly left of the stack's top edge `(a, b)`, and `q` is lex-below `b`,
then `q` is weakly left of the new edge `(b, p)`. -/
theorem fanDown {a b p q : LatLng}
    (hab : lexLe a b) (hbp : lexLe b p) (hqb : lexLe q b)
    (hq : 0 ≤ crossProduct a b q) (hp : 0 < crossProduct a b p) :
    0 ≤ crossProduct b p q := by
  rcases eq_or_lt_of_le (lexLe_lat hab) with heq | hlt
  · exfalso
    have hlng : a.lng ≤ b.lng := by
      rcases hab with h | ⟨_, h⟩
      · exact absurd h (heq ▸ lt_irrefl _)
      · exact h
    have e1 : crossProduct a b p = -((b.lng - a.lng) * (p.lat - a.lat)) := by
      unfold crossProduct
      rw [← heq]
      ring
    have hpl : b.lat ≤ p.lat := lexLe_lat hbp
    nlinarith [hp, e1, heq]
  · have hid : crossProduct b p q * (b.lat - a.lat) =
        crossProduct a b q * (p.lat - b.lat) + crossProduct a b p * (b.lat - q.lat) := by
      unfold crossProduct
      ring
    nlinarith [hid, hlt, mul_nonneg hq (sub_nonneg.mpr (lexLe_lat hbp)),
      mul_nonneg (le_of_lt hp) (sub_nonneg.mpr (lexLe_lat hqb))]

/-- Downward propagation for the new point: if `p` is weakly left of the
stack's top edge `(a, b)` and the triple below turns strictly left, `p` is
weakly left of the next edge `(c, a)` as well. -/
theorem fanStep {c a b p : LatLng}
    (hca : lexLe c a) (hab : lexLe a b) (hap : lexLe a p) (hbp : lexLe b p)
    (hconv : 0 < crossProduct c a b) (htop : 0 ≤ crossProduct a b p) :
    0 ≤ crossProduct c a p := by
  rcases eq_or_lt_of_le (lexLe_lat hab) with heq | hlt
  · have hlng : a.lng ≤ b.lng := by
      rcases hab with h | ⟨_, h⟩
      · exact absurd h (heq ▸ lt_irrefl _)
      · exact h
    have e1 : crossProduct a b p = -((b.lng - a.lng) * (p.lat - a.lat)) := by
      unfold crossProduct
      rw [← heq]
      ring
    by_cases hdy : a.lng = b.lng
    · exfalso
      have hab' : a = b := by cases a; cases b; simp_all
      rw [hab', crossProduct_self_right] at hconv
      exact absurd hconv (lt_irrefl 0)
    · have hdy' : a.lng < b.lng := lt_of_le_of_ne hlng hdy
      have hplat : p.lat = a.lat := by
        have h1 := lexLe_lat hap
        nlinarith [htop, e1]
      have hplng : a.lng ≤ p.lng := by
        rcases hap with h | ⟨_, h⟩
        · exact absurd h (hplat ▸ lt_irrefl _)
        · exact h
      have e2 : crossProduct c a p = (a.lat - c.lat) * (p.lng - a.lng) := by
        unfold crossProduct
        rw [hplat]
        ring
      rw [e2]
      exact mul_nonneg (sub_nonneg.mpr (lexLe_lat hca)) (by linarith)
  · have hid : crossProduct c a p * (b.lat - a.lat) =
        crossProduct c a b * (p.lat - a.lat) + crossProduct a b p * (a.lat - c.lat) := by
      unfold crossProduct
      ring
    nlinarith [hid, hlt, mul_nonneg (le_of_lt hconv) (sub_nonneg.mpr (lexLe_lat hap)),
      mul_nonneg htop (sub_nonneg.mpr (lexLe_lat hca))]

/-- Barycentric membership: a point weakly left of all three edges of a
strictly counterclockwise triangle lies in the convex hull of its vertices. -/
theorem triangle_mem {a b c q : LatLng}
    (hor : 0 < crossProduct a b c)
    (hab : 0 ≤ crossProduct a b q) (hbc : 0 ≤ crossProduct b c q)
    (hca : 0 ≤ crossProduct c a q) :
    toVec q ∈ convexHull ℚ ({toVec a, toVec b, toVec c} : Set (ℚ × ℚ)) := by
  have hsum : crossProduct b c q + crossProduct c a q + crossProduct a b q =
      crossProduct a b c := by
    unfold crossProduct
    ring
  have hq1 : crossProduct a b c * q.lat =
      crossProduct b c q * a.lat + crossProduct c a q * b.lat +
        crossProduct a b q * c.lat := by
    unfold crossProduct
    ring
  have hq2 : crossProduct a b c * q.lng =
      crossProduct b c q * a.lng + crossProduct c a q * b.lng +
        crossProduct a b q * c.lng := by
    unfold crossProduct
    ring
  have hcx : Convex ℚ (convexHull ℚ ({toVec a, toVec b, toVec c} : Set (ℚ × ℚ))) :=
    convex_convexHull ℚ _
  have hma : toVec a ∈ convexHull ℚ ({toVec a, toVec b, toVec c} : Set (ℚ × ℚ)) :=
    subset_convexHull ℚ _ (by simp)
  have hmb : toVec b ∈ convexHull ℚ ({toVec a, toVec b, toVec c} : Set (ℚ × ℚ)) :=
    subset_convexHull ℚ _ (by simp)
  have hmc : toVec c ∈ convexHull ℚ ({toVec a, toVec b, toVec c} : Set (ℚ × ℚ)) :=
    subset_convexHull ℚ _ (by simp)
  by_cases hbg : crossProduct c a q + crossProduct a b q = 0
  · have hb0 : crossProduct c a q = 0 := by linarith
    have hg0 : crossProduct a b q = 0 := by linarith
    have haq : toVec q = toVec a := by
      have h1 : crossProduct b c q = crossProduct a b c := by linarith
      have hl : q.lat = a.lat := by
        rw [hb0, hg0] at hq1
        rw [h1] at hq1
        have := mul_left_cancel₀ (ne_of_gt hor) (by linarith [hq1] :
          crossProduct a b c * q.lat = crossProduct a b c * a.lat)
        exact this
      have hn : q.lng = a.lng := by
        rw [hb0, hg0] at hq2
        rw [h1] at hq2
        exact mul_left_cancel₀ (ne_of_gt hor) (by linarith [hq2] :
          crossProduct a b c * q.lng = crossProduct a b c * a.lng)
      unfold toVec
      rw [hl, hn]
    rw [haq]
    exact hma
  · have hbgpos : 0 < crossProduct c a q + crossProduct a b q :=
      lt_of_le_of_ne (by linarith) (Ne.symm hbg)
    set β := crossProduct c a q with hβ
    set γ := crossProduct a b q with hγ
    set α := crossProduct b c q with hα
    set σ := crossProduct a b c with hσ
    have hz : ((β / (β + γ)) • toVec b + (γ / (β + γ)) • toVec c) ∈
        convexHull ℚ ({toVec a, toVec b, toVec c} : Set (ℚ × ℚ)) := by
      refine hcx hmb hmc (div_nonneg hca (le_of_lt hbgpos))
        (div_nonneg hab (le_of_lt hbgpos)) ?_
      field_simp
    have hmem := hcx hma hz (div_nonneg hbc (le_of_lt hor))
      (div_nonneg (le_of_lt hbgpos) (le_of_lt hor))
      (by field_simp; linarith [hsum])
    have hqeq : toVec q = (α / σ) • toVec a +
        (((β + γ) / σ) • ((β / (β + γ)) • toVec b + (γ / (β + γ)) • toVec c)) := by
      have hσ0 : σ ≠ 0 := ne_of_gt hor
      have hbg0 : β + γ ≠ 0 := ne_of_gt hbgpos
      unfold toVec
      rw [Prod.ext_iff]
      constructor
      · simp only [Prod.smul_fst, Prod.fst_add, smul_eq_mul]
        field_simp
        linear_combination (σ * (β + γ)) * hq1
      · simp only [Prod.smul_snd, Prod.snd_add, smul_eq_mul]
        field_simp
        linear_combination (σ * (β + γ)) * hq2
    rw [hqeq]
    exact hmem

/-- A point collinear with two others and lex-between them lies on their
segment, hence in the convex hull of the pair. -/
theorem collinear_mem_pair {f l q : LatLng}
    (hcol : crossProduct f l q = 0) (hfq : lexLe f q) (hql : lexLe q l) :
    toVec q ∈ convexHull ℚ ({toVec f, toVec l} : Set (ℚ × ℚ)) := by
  rw [convexHull_pair]
  rcases eq_or_lt_of_le (lexLe_lat (lexLe_trans hfq hql)) with heq | hlt
  · have hqlat : q.lat = f.lat := le_antisymm (heq ▸ lexLe_lat hql) (lexLe_lat hfq)
    have hllat : l.lat = f.lat := heq.symm
    have hfqlng : f.lng ≤ q.lng := by
      rcases hfq with h | ⟨_, h⟩
      · exact absurd h (hqlat ▸ lt_irrefl _)
      · exact h
    have hqllng : q.lng ≤ l.lng := by
      rcases hql with h | ⟨_, h⟩
      · exact absurd h (by rw [hqlat, hllat]; exact lt_irrefl _)
      · exact h
    by_cases hfl : f.lng = l.lng
    · refine ⟨1, 0, by norm_num, by norm_num, by norm_num, ?_⟩
      have hql2 : q.lng = f.lng := le_antisymm (hfl ▸ hqllng) hfqlng
      unfold toVec
      rw [Prod.ext_iff]
      constructor
      · simp [hqlat]
      · simp [hql2]
    · have hfl' : f.lng < l.lng := lt_of_le_of_ne (le_trans hfqlng hqllng) hfl
      have h0 : l.lng - f.lng ≠ 0 := ne_of_gt (by linarith)
      refine ⟨1 - (q.lng - f.lng) / (l.lng - f.lng), (q.lng - f.lng) / (l.lng - f.lng),
        ?_, div_nonneg (by linarith) (by linarith), by ring, ?_⟩
      · have ht1 : (q.lng - f.lng) / (l.lng - f.lng) ≤ 1 := by
          rw [div_le_one (by linarith)]
          linarith
        linarith
      · unfold toVec
        rw [Prod.ext_iff]
        constructor
        · simp only [Prod.smul_fst, Prod.fst_add, smul_eq_mul]
          rw [hqlat, hllat]
          field_simp
          ring
        · simp only [Prod.smul_snd, Prod.snd_add, smul_eq_mul]
          field_simp
          ring
  · have h0 : l.lat - f.lat ≠ 0 := ne_of_gt (by linarith)
    have hexp : q.lng * (l.lat - f.lat) =
        f.lng * (l.lat - f.lat) + (q.lat - f.lat) * (l.lng - f.lng) := by
      unfold crossProduct at hcol
      linear_combination hcol
    refine ⟨1 - (q.lat - f.lat) / (l.lat - f.lat), (q.lat - f.lat) / (l.lat - f.lat),
      ?_, div_nonneg (by linarith [lexLe_lat hfq]) (by linarith), by ring, ?_⟩
    · have ht1 : (q.lat - f.lat) / (l.lat - f.lat) ≤ 1 := by
        rw [div_le_one (by linarith)]
        linarith [lexLe_lat hql]
      linarith
    · unfold toVec
      rw [Prod.ext_iff]
      constructor
      · simp only [Prod.smul_fst, Prod.fst_add, smul_eq_mul]
        field_simp
        ring
      · simp only [Prod.smul_snd, Prod.snd_add, smul_eq_mul]
        field_simp
        linear_combination (-1 : ℚ) * hexp

theorem StackConvex_tail {x : LatLng} {s : List LatLng}
    (h : StackConvex (x :: s)) : StackConvex s := by
  match s, h with
  | [], _ => trivial
  | [a], _ => trivial
  | [a, b], _ => trivial
  | a :: b :: c :: rest, h => exact h.2

theorem StackConvex_suffix {s t : List LatLng}
    (h : StackConvex s) (hsuf : t.IsSuffix s) : StackConvex t := by
  obtain ⟨u, rfl⟩ := hsuf
  induction u with
  | nil => exact h
  | cons x u ih => exact ih (StackConvex_tail h)

/-- `chainStep` pushes `p` onto a suffix of the stack; if that suffix keeps
two or more points, its top pair makes a strict left turn with `p`. -/
theorem chainStep_destruct (p : LatLng) (s : List LatLng) :
    ∃ t, chainStep p s = p :: t ∧ t.IsSuffix s ∧
      (∀ b a rest, t = b :: a :: rest → 0 < crossProduct a b p) ∧
      (t = [] ↔ s = []) := by
  induction s with
  | nil => exact ⟨[], rfl, List.suffix_refl _, fun b a r h => (by cases h), Iff.rfl⟩
  | cons x s' ih =>
      cases s' with
      | nil =>
          exact ⟨[x], rfl, List.suffix_refl _, fun b a r h => (by cases h),
            by simp⟩
      | cons y rest =>
          by_cases hc : crossProduct y x p ≤ 0
          · obtain ⟨t, h1, h2, h3, h4⟩ := ih
            refine ⟨t, ?_, h2.trans (List.suffix_cons x _), h3, ?_⟩
            · simp only [chainStep, if_pos hc]
              exact h1
            · simp only [h4]
              simp
          · refine ⟨x :: y :: rest, ?_, List.suffix_refl _, ?_, by simp⟩
            · simp only [chainStep, if_neg hc]
            · intro b a r h
              injection h with hb h'
              injection h' with ha hr
              subst hb
              subst ha
              exact not_le.mp hc

theorem chainStep_sorted {p : LatLng} {s : List LatLng}
    (hsorted : StackSorted s) (hsp : ∀ e ∈ s, lexLe e p) :
    StackSorted (chainStep p s) := by
  obtain ⟨t, h1, h2, _, _⟩ := chainStep_destruct p s
  rw [h1]
  refine List.Chain'.cons' (hsorted.suffix h2) ?_
  intro y hy
  apply hsp
  apply h2.subset
  cases t with
  | nil => cases hy
  | cons z t' =>
      simp only [List.head?_cons, Option.mem_def, Option.some.injEq] at hy
      rw [← hy]
      exact List.mem_cons_self _ _

theorem chainStep_convex {p : LatLng} {s : List LatLng}
    (hconv : StackConvex s) : StackConvex (chainStep p s) := by
  obtain ⟨t, h1, h2, h3, _⟩ := chainStep_destruct p s
  rw [h1]
  match t, h3 with
  | [], _ => trivial
  | [a], _ => trivial
  | b :: a :: rest, h3 =>
      exact ⟨h3 b a rest rfl, StackConvex_suffix hconv h2⟩

/-- Core invariant step: a previously processed point `q` that is weakly left
of every stack edge stays weakly left of every edge after `p` is pushed. -/
theorem chainStep_above {q p : LatLng} : ∀ {s : List LatLng},
    StackSorted s → StackConvex s → StackAbove q s →
    lexLe q p → (∀ e ∈ s, lexLe e p) →
    (∀ b, s.getLast? = some b → lexLe b q) →
    (∀ a rest, s = a :: a :: rest → lexLe q a) →
    ((∀ u, s.head? = some u → lexLe q u) ∨
      (∃ r, lexLe r p ∧ ∀ u, s.head? = some u →
        lexLe u r ∧ crossProduct u r p ≤ 0 ∧ 0 ≤ crossProduct u r q ∧
          (r = u → lexLe q u))) →
    StackAbove q (chainStep p s)
  | [], _, _, _, _, _, _, _, _ => List.chain'_singleton p
  | [u], hsorted, hconv, habove, hqp, hsp, hbot, hdup, hw => by
      show List.Chain' _ [p, u]
      rw [List.chain'_cons]
      refine ⟨?_, List.chain'_singleton u⟩
      rcases hw with h | ⟨r, hrp, hr⟩
      · have hqu := h u rfl
        have huq := hbot u rfl
        have : q = u := lexLe_antisymm hqu huq
        rw [← this, crossProduct_self_last]
      · obtain ⟨hur, hcp, hcq, hru⟩ := hr u rfl
        exact obligUp hur hrp (hbot u rfl) hqp hcq hcp (fun h => hru h.symm)
  | x :: y :: rest, hsorted, hconv, habove, hqp, hsp, hbot, hdup, hw => by
      by_cases hc : crossProduct y x p ≤ 0
      · have hres : chainStep p (x :: y :: rest) = chainStep p (y :: rest) := by
          simp only [chainStep, if_pos hc]
        rw [hres]
        have hyx : lexLe y x := (List.chain'_cons.mp hsorted).1
        have hcrq : 0 ≤ crossProduct y x q := (List.chain'_cons.mp habove).1
        have hdup' : ∀ a rest', y :: rest = a :: a :: rest' → lexLe q a := by
          intro a rest' hrr
          rw [hrr] at hconv
          have h0 := hconv.1
          rw [crossProduct_self_mid] at h0
          exact absurd h0 (lt_irrefl 0)
        have hw' : (∀ u, (y :: rest).head? = some u → lexLe q u) ∨
            (∃ r, lexLe r p ∧ ∀ u, (y :: rest).head? = some u →
              lexLe u r ∧ crossProduct u r p ≤ 0 ∧ 0 ≤ crossProduct u r q ∧
                (r = u → lexLe q u)) := by
          right
          refine ⟨x, hsp x (List.mem_cons_self _ _), ?_⟩
          intro u hu
          simp only [List.head?_cons, Option.some.injEq] at hu
          subst hu
          exact ⟨hyx, hc, hcrq, fun hxy => hdup y rest (by rw [hxy])⟩
        exact chainStep_above (List.chain'_cons.mp hsorted).2 (StackConvex_tail hconv)
          (List.chain'_cons.mp habove).2 hqp
          (fun e he => hsp e (List.mem_cons_of_mem x he))
          (fun b hb => hbot b (by rw [List.getLast?_cons_cons]; exact hb))
          hdup' hw' 
      · have hres : chainStep p (x :: y :: rest) = p :: x :: y :: rest := by
          simp only [chainStep, if_neg hc]
        rw [hres]
        show List.Chain' _ (p :: x :: y :: rest)
        rw [List.chain'_cons]
        refine ⟨?_, habove⟩
        have hyx : lexLe y x := (List.chain'_cons.mp hsorted).1
        have hxp : lexLe x p := hsp x (List.mem_cons_self _ _)
        have hcrq : 0 ≤ crossProduct y x q := (List.chain'_cons.mp habove).1
        rcases lexLe_total q x with hqx | hxq
        · exact fanDown hyx hxp hqx hcrq (not_le.mp hc)
        · rcases hw with h | ⟨r, hrp, hr⟩
          · have hqx2 := h x rfl
            have : q = x := lexLe_antisymm hqx2 hxq
            rw [← this, crossProduct_self_last]
          · obtain ⟨hur, hcp, hcq, hru⟩ := hr x rfl
            exact obligUp hur hrp hxq hqp hcq hcp (fun h => hru h.symm)

/-- The newly pushed point is weakly left of every surviving stack edge:
left of the top edge by the stopped pop test, and of the deeper edges by
strict convexity. -/
theorem fanP {p : LatLng} : ∀ {s : List LatLng},
    StackSorted s → StackConvex s → (∀ e ∈ s, lexLe e p) →
    (∀ b a rest, s = b :: a :: rest → 0 ≤ crossProduct a b p) →
    StackAbove p s
  | [], _, _, _, _ => List.chain'_nil
  | [u], _, _, _, _ => List.chain'_singleton u
  | b :: a :: rest, hsorted, hconv, hsp, htop => by
      show List.Chain' _ (b :: a :: rest)
      rw [List.chain'_cons]
      refine ⟨htop b a rest rfl, ?_⟩
      refine fanP (List.chain'_cons.mp hsorted).2 (StackConvex_tail hconv)
        (fun e he => hsp e (List.mem_cons_of_mem b he)) ?_
      intro b' a' rest' h'
      injection h' with hb hrest
      subst hb
      subst hrest
      have hconv' : 0 < crossProduct a' a b := hconv.1
      exact fanStep (List.chain'_cons.mp (List.chain'_cons.mp hsorted).2).1
        (List.chain'_cons.mp hsorted).1
        (hsp a (List.mem_cons_of_mem b (List.mem_cons_self _ _)))
        (hsp b (List.mem_cons_self _ _)) hconv' (htop b a (a' :: rest') rfl)

theorem pairwise_head_le {P : List LatLng} (h : List.Pairwise lexLe P)
    {b : LatLng} (hb : P.head? = some b) {q : LatLng} (hq : q ∈ P) : lexLe b q := by
  cases P with
  | nil => cases hb
  | cons x t =>
      simp only [List.head?_cons, Option.some.injEq] at hb
      subst hb
      rcases List.mem_cons.mp hq with rfl | hq'
      · exact lexLe_refl q
      · exact (List.pairwise_cons.mp h).1 q hq'

theorem pairwise_le_getLast {P : List LatLng} (h : List.Pairwise lexLe P)
    {t : LatLng} (ht : P.getLast? = some t) {q : LatLng} (hq : q ∈ P) : lexLe q t := by
  induction P with
  | nil => cases ht
  | cons x rest ih =>
      cases rest with
      | nil =>
          simp only [List.getLast?_singleton, Option.some.injEq] at ht
          subst ht
          rcases List.mem_cons.mp hq with rfl | hq'
          · exact lexLe_refl q
          · cases hq'
      | cons y rest' =>
          rw [List.getLast?_cons_cons] at ht
          rcases List.mem_cons.mp hq with rfl | hq'
          · exact lexLe_trans ((List.pairwise_cons.mp h).1 t
              (List.mem_of_getLast?_eq_some ht)) (lexLe_refl t)
          · exact ih (List.pairwise_cons.mp h).2 ht hq'

theorem suffix_getLast? {t s : List LatLng} (h : t.IsSuffix s) (ht : t ≠ []) :
    t.getLast? = s.getLast? := by
  obtain ⟨u, rfl⟩ := h
  rw [List.getLast?_append_of_ne_nil u ht]

/-- Full scan invariant: folding `chainStep` over the remaining points of a
lex-sorted list keeps the stack sorted, strictly convex, weakly left of
every processed point, a reversed sublist of the processed prefix, with the
processed extremes at its ends. -/
theorem scan_inv : ∀ (rest P s : List LatLng),
    List.Pairwise lexLe (P ++ rest) →
    StackSorted s → StackConvex s →
    (∀ q ∈ P, StackAbove q s) →
    s.reverse.Sublist P →
    s.head? = P.getLast? →
    s.getLast? = P.head? →
    (s = [] ↔ P = []) →
    (2 ≤ P.length → 2 ≤ s.length) →
    StackSorted (rest.foldl (fun ch q => chainStep q ch) s) ∧
    StackConvex (rest.foldl (fun ch q => chainStep q ch) s) ∧
    (∀ q ∈ P ++ rest, StackAbove q (rest.foldl (fun ch q => chainStep q ch) s)) ∧
    (rest.foldl (fun ch q => chainStep q ch) s).reverse.Sublist (P ++ rest) ∧
    (rest.foldl (fun ch q => chainStep q ch) s).head? = (P ++ rest).getLast? ∧
    (rest.foldl (fun ch q => chainStep q ch) s).getLast? = (P ++ rest).head? ∧
    ((rest.foldl (fun ch q => chainStep q ch) s) = [] ↔ P ++ rest = []) ∧
    (2 ≤ (P ++ rest).length → 2 ≤ (rest.foldl (fun ch q => chainStep q ch) s).length)
  | [], P, s, hpair, hs, hc, hab, hsub, hh, hl, he, h2 => by
      simp only [List.foldl_nil, List.append_nil]
      exact ⟨hs, hc, hab, hsub, hh, hl, he, h2⟩
  | p :: rest', P, s, hpair, hs, hc, hab, hsub, hh, hl, he, h2 => by
      have hpairP : List.Pairwise lexLe P := (List.pairwise_append.mp hpair).1
      have hqP : ∀ q ∈ P, lexLe q p := fun q hq =>
        (List.pairwise_append.mp hpair).2.2 q hq p (List.mem_cons_self _ _)
      have hsp : ∀ e ∈ s, lexLe e p := fun e hee =>
        hqP e (hsub.subset (List.mem_reverse.mpr hee))
      obtain ⟨t, ht1, ht2, ht3, ht4⟩ := chainStep_destruct p s
      have inv1 : StackSorted (chainStep p s) := chainStep_sorted hs hsp
      have inv2 : StackConvex (chainStep p s) := chainStep_convex hc
      have inv3 : ∀ q ∈ P ++ [p], StackAbove q (chainStep p s) := by
        intro q hq
        rcases List.mem_append.mp hq with hq' | hq'
        · refine chainStep_above hs hc (hab q hq') (hqP q hq') hsp ?_ ?_ ?_
          · intro b hb
            exact pairwise_head_le hpairP (hl ▸ hb) hq'
          · intro a r'' hs''
            have : s.head? = some a := by rw [hs'']; rfl
            exact pairwise_le_getLast hpairP (hh ▸ this) hq'
          · left
            intro u hu
            exact pairwise_le_getLast hpairP (hh ▸ hu) hq'
        · have hqp : q = p := by simpa using hq'
          subst hqp
          rw [ht1]
          refine List.Chain'.cons' ?_ ?_
          · exact fanP (hs.suffix ht2) (StackConvex_suffix hc ht2)
              (fun e hee => hsp e (ht2.subset hee))
              (fun b a r hr => le_of_lt (ht3 b a r hr))
          · intro y hy
            cases t with
            | nil => cases hy
            | cons z t' =>
                simp only [List.head?_cons, Option.mem_def, Option.some.injEq] at hy
                rw [← hy]
                rw [crossProduct_self_right]
      have inv4 : (chainStep p s).reverse.Sublist (P ++ [p]) := by
        rw [ht1, List.reverse_cons]
        exact List.Sublist.append
          (((List.reverse_prefix.mpr ht2).sublist).trans hsub) (List.Sublist.refl [p])
      have inv5 : (chainStep p s).head? = (P ++ [p]).getLast? := by
        rw [ht1, List.getLast?_concat]
        rfl
      have inv6 : (chainStep p s).getLast? = (P ++ [p]).head? := by
        by_cases hP : P = []
        · have hse : s = [] := he.mpr hP
          have hte : t = [] := ht4.mpr hse
          rw [ht1, hte, hP]
          rfl
        · have hsne : ¬s = [] := fun hx => hP (he.mp hx)
          have htne : ¬t = [] := fun hx => hsne (ht4.mp hx)
          rw [ht1]
          cases t with
          | nil => exact absurd rfl htne
          | cons z t' =>
              rw [List.getLast?_cons_cons]
              rw [show (z :: t').getLast? = s.getLast? from suffix_getLast? ht2 htne]
              rw [hl, List.head?_append_of_ne_nil P hP]
      have inv7 : chainStep p s = [] ↔ P ++ [p] = [] := by
        rw [ht1]
        simp
      have inv8 : 2 ≤ (P ++ [p]).length → 2 ≤ (chainStep p s).length := by
        intro hlen
        have hP : ¬P = [] := by
          intro hx
          rw [hx] at hlen
          simp at hlen
        have hsne : ¬s = [] := fun hx => hP (he.mp hx)
        have htne : ¬t = [] := fun hx => hsne (ht4.mp hx)
        rw [ht1, List.length_cons]
        have : 1 ≤ t.length := List.length_pos.mpr htne
        omega
      have hpair' : List.Pairwise lexLe ((P ++ [p]) ++ rest') := by
        rw [List.append_assoc, List.singleton_append]
        exact hpair
      have hres := scan_inv rest' (P ++ [p]) (chainStep p s) hpair'
        inv1 inv2 inv3 inv4 inv5 inv6 inv7 inv8
      rw [show (P ++ [p]) ++ rest' = P ++ p :: rest' from by
        rw [List.append_assoc, List.singleton_append]] at hres
      rw [List.foldl_cons]
      exact hres

theorem crossProduct_rev (a b q : LatLng) :
    crossProduct a b q = -crossProduct b a q := by
  unfold crossProduct
  ring

theorem mem_vset {v : LatLng} {C : List LatLng} (hv : v ∈ C) : toVec v ∈ vset C :=
  ⟨v, hv, rfl⟩

theorem vset_mono {C D : List LatLng} (h : ∀ x ∈ C, x ∈ D) : vset C ⊆ vset D := by
  rintro w ⟨v, hv, rfl⟩
  exact ⟨v, h v hv, rfl⟩

/-- Containment in a convex chain polygon: a point weakly left of every
stack edge and of the closing edge, lex-between the stack ends, lies in the
convex hull of the stack's points. -/
theorem stack_polygon_mem : ∀ (n : ℕ) (s : List LatLng) (q : LatLng),
    s.length ≤ n →
    StackSorted s → StackConvex s → StackAbove q s → 2 ≤ s.length →
    (∀ hd lst, s.head? = some hd → s.getLast? = some lst →
      0 ≤ crossProduct hd lst q ∧ lexLe lst q ∧ lexLe q hd) →
    toVec q ∈ convexHull ℚ (vset s)
  | 0, s, q, hn, _, _, _, hlen, _ => absurd (le_trans hlen hn) (by norm_num)
  | n + 1, [], q, hn, _, _, _, hlen, _ => by simp at hlen
  | n + 1, [z], q, hn, _, _, _, hlen, _ => by simp at hlen
  | n + 1, [z, x], q, hn, hsorted, hconv, habove, hlen, hclose => by
      obtain ⟨hcl, hxq, hqz⟩ := hclose z x rfl rfl
      have hedge : 0 ≤ crossProduct x z q := (List.chain'_cons.mp habove).1
      have hcol : crossProduct x z q = 0 := by
        have := crossProduct_rev z x q
        linarith
      have hmem := collinear_mem_pair hcol hxq hqz
      refine convexHull_mono ?_ hmem
      intro w hw
      rcases hw with hw | hw
      · exact hw ▸ mem_vset (by simp)
      · exact hw ▸ mem_vset (by simp)
  | n + 1, z :: y :: x :: rest, q, hn, hsorted, hconv, habove, hlen, hclose => by
      have hxy : lexLe x y := (List.chain'_cons.mp (List.chain'_cons.mp hsorted).2).1
      have hyz : lexLe y z := (List.chain'_cons.mp hsorted).1
      have hq_yz : 0 ≤ crossProduct y z q := (List.chain'_cons.mp habove).1
      have hq_xy : 0 ≤ crossProduct x y q :=
        (List.chain'_cons.mp (List.chain'_cons.mp habove).2).1
      have htri : 0 < crossProduct x y z := hconv.1
      by_cases hA : 0 ≤ crossProduct z x q
      · have hmem := triangle_mem htri hq_xy hq_yz hA
        refine convexHull_mono ?_ hmem
        intro w hw
        rcases hw with hw | hw | hw
        · exact hw ▸ mem_vset (by simp)
        · exact hw ▸ mem_vset (by simp)
        · exact hw ▸ mem_vset (by simp)
      · push_neg at hA
        have hB : 0 ≤ crossProduct x z q := by
          have := crossProduct_rev z x q
          linarith
        have hsorted' : StackSorted (z :: x :: rest) := by
          rw [StackSorted, List.chain'_cons]
          exact ⟨lexLe_trans hxy hyz,
            (List.chain'_cons.mp (List.chain'_cons.mp hsorted).2).2⟩
        have hconv' : StackConvex (z :: x :: rest) := by
          cases rest with
          | nil => trivial
          | cons w rest'' =>
              refine ⟨?_, hconv.2.2⟩
              have hwx : lexLe w x :=
                (List.chain'_cons.mp
                  (List.chain'_cons.mp (List.chain'_cons.mp hsorted).2).2).1
              exact step_abd (lexLe_lat hwx) (lexLe_lat hxy) (lexLe_lat hyz)
                hconv.2.1 hconv.1
        have habove' : StackAbove q (z :: x :: rest) := by
          rw [StackAbove, List.chain'_cons]
          exact ⟨hB, (List.chain'_cons.mp (List.chain'_cons.mp habove).2).2⟩
        have hclose' : ∀ hd lst, (z :: x :: rest).head? = some hd →
            (z :: x :: rest).getLast? = some lst →
            0 ≤ crossProduct hd lst q ∧ lexLe lst q ∧ lexLe q hd := by
          intro hd lst hhd hlst
          apply hclose
          · exact hhd
          · rw [List.getLast?_cons_cons]
            rw [List.getLast?_cons_cons] at hlst
            cases rest with
            | nil => exact hlst
            | cons w rest'' =>
                rw [List.getLast?_cons_cons] at hlst ⊢
                exact hlst
        have hlen' : 2 ≤ (z :: x :: rest).length := by
          simp only [List.length_cons]
          omega
        have hn' : (z :: x :: rest).length ≤ n := by
          simp only [List.length_cons] at hn ⊢
          omega
        have hres := stack_polygon_mem n (z :: x :: rest) q hn'
          hsorted' hconv' habove' hlen' hclose'
        refine convexHull_mono ?_ hres
        apply vset_mono
        intro w hw
        rcases List.mem_cons.mp hw with rfl | hw'
        · exact List.mem_cons_self _ _
        · exact List.mem_cons_of_mem _ (List.mem_cons_of_mem _ hw')

theorem toVec_negP (v : LatLng) : toVec (negP v) = -(toVec v) := rfl

theorem chainStep_negP (p : LatLng) : ∀ (s : List LatLng),
    chainStep (negP p) (s.map negP) = (chainStep p s).map negP
  | [] => rfl
  | [a] => rfl
  | b :: a :: rest => by
      simp only [List.map_cons]
      by_cases hc : crossProduct a b p ≤ 0
      · have hc' : crossProduct (negP a) (negP b) (negP p) ≤ 0 := by
          rw [crossProduct_negP]
          exact hc
        simp only [chainStep, if_pos hc, if_pos hc']
        have := chainStep_negP p (a :: rest)
        simpa using this
      · have hc' : ¬crossProduct (negP a) (negP b) (negP p) ≤ 0 := by
          rw [crossProduct_negP]
          exact hc
        simp only [chainStep, if_neg hc, if_neg hc']
        simp

theorem foldl_chainStep_negP : ∀ (l s : List LatLng),
    (l.map negP).foldl (fun ch q => chainStep q ch) (s.map negP) =
      (l.foldl (fun ch q => chainStep q ch) s).map negP
  | [], s => rfl
  | p :: l, s => by
      simp only [List.map_cons, List.foldl_cons]
      rw [chainStep_negP p s]
      exact foldl_chainStep_negP l (chainStep p s)

theorem map_negP_invol (l : List LatLng) : (l.map negP).map negP = l := by
  rw [List.map_map]
  have : (negP ∘ negP) = id := funext negP_negP
  rw [this, List.map_id]

theorem vset_map_negP (C : List LatLng) : vset (C.map negP) = -vset C := by
  ext x
  constructor
  · rintro ⟨v, hv, rfl⟩
    obtain ⟨w, hw, rfl⟩ := List.mem_map.mp hv
    rw [toVec_negP]
    rw [Set.mem_neg, neg_neg]
    exact mem_vset hw
  · intro hx
    rw [Set.mem_neg] at hx
    obtain ⟨v, hv, hveq⟩ := hx
    refine ⟨negP v, List.mem_map.mpr ⟨v, hv, rfl⟩, ?_⟩
    rw [toVec_negP, hveq, neg_neg]

theorem buildChain_eq_reverse (pts : List LatLng) :
    buildChain pts = (buildStack pts).reverse := rfl

theorem pairwise_mergeSort_lexLe (S : List LatLng) :
    List.Pairwise lexLe (S.mergeSort hullLe) := by
  have htrans : ∀ (a b c : LatLng), hullLe a b → hullLe b c → hullLe a c := by
    intro a b c hab hbc
    exact (hullLe_iff_lexLe a c).mpr
      (lexLe_trans ((hullLe_iff_lexLe a b).mp hab) ((hullLe_iff_lexLe b c).mp hbc))
  have htotal : ∀ (a b : LatLng), hullLe a b || hullLe b a := by
    intro a b
    rcases lexLe_total a b with h | h
    · simp [(hullLe_iff_lexLe a b).mpr h]
    · simp [(hullLe_iff_lexLe b a).mpr h]
  have h := List.sorted_mergeSort htrans htotal S
  exact h.imp (fun hab => (hullLe_iff_lexLe _ _).mp hab)

theorem buildStack_facts (pts : List LatLng) (hpw : List.Pairwise lexLe pts) :
    StackSorted (buildStack pts) ∧ StackConvex (buildStack pts) ∧
    (∀ q ∈ pts, StackAbove q (buildStack pts)) ∧
    (buildStack pts).reverse.Sublist pts ∧
    (buildStack pts).head? = pts.getLast? ∧
    (buildStack pts).getLast? = pts.head? ∧
    (buildStack pts = [] ↔ pts = []) ∧
    (2 ≤ pts.length → 2 ≤ (buildStack pts).length) := by
  have h := scan_inv pts [] [] (by simpa using hpw) List.chain'_nil trivial
    (fun q hq => absurd hq (List.not_mem_nil q)) (by simp) rfl rfl
    (by simp) (fun h => h)
  simpa using h

theorem buildStack_negP (pts : List LatLng) :
    buildStack pts.reverse = (buildStack (pts.reverse.map negP)).map negP := by
  have h := foldl_chainStep_negP (pts.reverse.map negP) []
  rw [map_negP_invol] at h
  unfold buildStack
  simpa using h

theorem pairwise_reverse_negP {pts : List LatLng}
    (hpw : List.Pairwise lexLe pts) :
    List.Pairwise lexLe (pts.reverse.map negP) := by
  rw [List.pairwise_map]
  rw [List.pairwise_reverse]
  exact hpw.imp (fun h => lexLe_negP.mpr h)

theorem hull_small (S : List LatLng) (h : S.length < 3) :
    calculateConvexHull S = S := by
  rw [calculateConvexHull, if_pos h]

theorem hull_eq_parts (S : List LatLng) (h3 : ¬S.length < 3) :
    calculateConvexHull S =
      (buildStack (S.mergeSort hullLe)).reverse.dropLast ++
        (buildStack (S.mergeSort hullLe).reverse).reverse := by
  rw [calculateConvexHull, if_neg h3, buildChain_eq_reverse, buildChain_eq_reverse]

theorem length_mergeSort_lexLe (S : List LatLng) :
    (S.mergeSort hullLe).length = S.length :=
  (List.mergeSort_perm S hullLe).length_eq

theorem mem_mergeSort_lexLe {S : List LatLng} {x : LatLng} :
    x ∈ S.mergeSort hullLe ↔ x ∈ S :=
  (List.mergeSort_perm S hullLe).mem_iff

theorem upper_getLast?_eq (S : List LatLng) :
    (buildStack (S.mergeSort hullLe).reverse).getLast? =
      ((S.mergeSort hullLe).getLast?.map negP).map negP := by
  rw [buildStack_negP]
  rw [List.getLast?_map]
  have h := (buildStack_facts ((S.mergeSort hullLe).reverse.map negP)
    (pairwise_reverse_negP (pairwise_mergeSort_lexLe S))).2.2.2.2.2.1
  rw [h, List.head?_map, List.head?_reverse]

theorem mem_hull_of_mem_upper (S : List LatLng) (h3 : ¬S.length < 3) :
    ∀ x ∈ buildStack (S.mergeSort hullLe).reverse, x ∈ calculateConvexHull S := by
  intro x hx
  rw [hull_eq_parts S h3]
  exact List.mem_append_right _ (List.mem_reverse.mpr hx)

theorem mem_hull_of_mem_lower (S : List LatLng) (h3 : ¬S.length < 3) :
    ∀ x ∈ buildStack (S.mergeSort hullLe), x ∈ calculateConvexHull S := by
  intro x hx
  have hslne : S.mergeSort hullLe ≠ [] := by
    intro h0
    have := length_mergeSort_lexLe S
    rw [h0] at this
    simp only [List.length_nil] at this
    omega
  obtain ⟨M, hM⟩ := Option.isSome_iff_exists.mp
    (List.getLast?_isSome.mpr hslne)
  have hhead : (buildStack (S.mergeSort hullLe)).head? = some M := by
    rw [(buildStack_facts _ (pairwise_mergeSort_lexLe S)).2.2.2.2.1, hM]
  have hrevlast : (buildStack (S.mergeSort hullLe)).reverse.getLast? = some M := by
    rw [List.getLast?_reverse, hhead]
  have hdecomp : (buildStack (S.mergeSort hullLe)).reverse.dropLast ++ [M] =
      (buildStack (S.mergeSort hullLe)).reverse :=
    List.dropLast_append_getLast? _ hrevlast
  have hxrev : x ∈ (buildStack (S.mergeSort hullLe)).reverse :=
    List.mem_reverse.mpr hx
  rw [← hdecomp] at hxrev
  rcases List.mem_append.mp hxrev with hx1 | hx2
  · rw [hull_eq_parts S h3]
    exact List.mem_append_left _ hx1
  · have hxM : x = M := by simpa using hx2
    subst hxM
    have hUlast : (buildStack (S.mergeSort hullLe).reverse).getLast? = some x := by
      rw [upper_getLast?_eq, hM]
      simp [negP_negP]
    exact mem_hull_of_mem_upper S h3 x (List.mem_of_getLast?_eq_some hUlast)

/-- Every vertex emitted by `calculateConvexHull` is one of the input points. -/
theorem hull_subset_input (S : List LatLng) :
    ∀ v ∈ calculateConvexHull S, v ∈ S := by
  intro v hv
  by_cases h3 : S.length < 3
  · rwa [hull_small S h3] at hv
  · rw [hull_eq_parts S h3] at hv
    rcases List.mem_append.mp hv with hv1 | hv2
    · have hvL : v ∈ buildStack (S.mergeSort hullLe) :=
        List.mem_reverse.mp (List.dropLast_sublist _ |>.subset hv1)
      have hsub := (buildStack_facts _ (pairwise_mergeSort_lexLe S)).2.2.2.1
      exact mem_mergeSort_lexLe.mp (hsub.subset (List.mem_reverse.mpr hvL))
    · have hvU : v ∈ buildStack (S.mergeSort hullLe).reverse :=
        List.mem_reverse.mp hv2
      rw [buildStack_negP] at hvU
      obtain ⟨u, hu, hveq⟩ := List.mem_map.mp hvU
      have hsub := (buildStack_facts ((S.mergeSort hullLe).reverse.map negP)
        (pairwise_reverse_negP (pairwise_mergeSort_lexLe S))).2.2.2.1
      have huin : u ∈ (S.mergeSort hullLe).reverse.map negP :=
        hsub.subset (List.mem_reverse.mpr hu)
      obtain ⟨w, hw, hueq⟩ := List.mem_map.mp huin
      have : v = w := by rw [← hveq, ← hueq, negP_negP]
      subst this
      exact mem_mergeSort_lexLe.mp (List.mem_reverse.mp hw)

/-- Every input point lies in the convex hull of the vertices returned by
`calculateConvexHull`: the lower stack covers points weakly below the
diameter `m`–`M`, the upper stack (via pointwise negation) covers the rest. -/
theorem hull_contains_input (S : List LatLng) (q : LatLng) (hq : q ∈ S) :
    toVec q ∈ convexHull ℚ (vset (calculateConvexHull S)) := by
  by_cases h3 : S.length < 3
  · rw [hull_small S h3]
    exact subset_convexHull ℚ _ (mem_vset hq)
  · have hpw := pairwise_mergeSort_lexLe S
    have hslen : 3 ≤ (S.mergeSort hullLe).length := by
      rw [length_mergeSort_lexLe]
      omega
    have hslne : S.mergeSort hullLe ≠ [] := by
      intro h0
      rw [h0] at hslen
      simp at hslen
    have hqsl : q ∈ S.mergeSort hullLe := mem_mergeSort_lexLe.mpr hq
    obtain ⟨M, hM⟩ := Option.isSome_iff_exists.mp (List.getLast?_isSome.mpr hslne)
    obtain ⟨m, hm⟩ : ∃ m, (S.mergeSort hullLe).head? = some m := by
      cases hsl : S.mergeSort hullLe with
      | nil => exact absurd hsl hslne
      | cons a t => exact ⟨a, rfl⟩
    have hqM : lexLe q M := pairwise_le_getLast hpw hM hqsl
    have hmq : lexLe m q := pairwise_head_le hpw hm hqsl
    have hfl := buildStack_facts _ hpw
    have hpw' := pairwise_reverse_negP hpw
    have hfu := buildStack_facts ((S.mergeSort hullLe).reverse.map negP) hpw'
    by_cases hside : 0 ≤ crossProduct M m q
    · -- lower stack case
      have hLhead : (buildStack (S.mergeSort hullLe)).head? = some M := by
        rw [hfl.2.2.2.2.1, hM]
      have hLlast : (buildStack (S.mergeSort hullLe)).getLast? = some m := by
        rw [hfl.2.2.2.2.2.1, hm]
      have hL2 : 2 ≤ (buildStack (S.mergeSort hullLe)).length :=
        hfl.2.2.2.2.2.2.2 (by omega)
      have hclose : ∀ hd lst, (buildStack (S.mergeSort hullLe)).head? = some hd →
          (buildStack (S.mergeSort hullLe)).getLast? = some lst →
          0 ≤ crossProduct hd lst q ∧ lexLe lst q ∧ lexLe q hd := by
        intro hd lst hhd hlst
        rw [hLhead] at hhd
        rw [hLlast] at hlst
        injection hhd with hhd
        injection hlst with hlst
        subst hhd
        subst hlst
        exact ⟨hside, hmq, hqM⟩
      have hmem := stack_polygon_mem (buildStack (S.mergeSort hullLe)).length
        (buildStack (S.mergeSort hullLe)) q (le_refl _)
        hfl.1 hfl.2.1 (hfl.2.2.1 q hqsl) hL2 hclose
      refine convexHull_mono ?_ hmem
      exact vset_mono (mem_hull_of_mem_lower S h3)
    · -- upper stack case, via negP conjugation
      push_neg at hside
      have hrev : 0 ≤ crossProduct m M q := by
        have := crossProduct_rev M m q
        linarith
      have hnegq : negP q ∈ (S.mergeSort hullLe).reverse.map negP :=
        List.mem_map.mpr ⟨q, List.mem_reverse.mpr hqsl, rfl⟩
      have hUhead : (buildStack ((S.mergeSort hullLe).reverse.map negP)).head? =
          some (negP m) := by
        rw [hfu.2.2.2.2.1, List.getLast?_map, List.getLast?_reverse, hm]
        rfl
      have hUlast : (buildStack ((S.mergeSort hullLe).reverse.map negP)).getLast? =
          some (negP M) := by
        rw [hfu.2.2.2.2.2.1, List.head?_map, List.head?_reverse, hM]
        rfl
      have hU2 : 2 ≤ (buildStack ((S.mergeSort hullLe).reverse.map negP)).length := by
        refine hfu.2.2.2.2.2.2.2 ?_
        rw [List.length_map, List.length_reverse]
        omega
      have hclose : ∀ hd lst,
          (buildStack ((S.mergeSort hullLe).reverse.map negP)).head? = some hd →
          (buildStack ((S.mergeSort hullLe).reverse.map negP)).getLast? = some lst →
          0 ≤ crossProduct hd lst (negP q) ∧ lexLe lst (negP q) ∧ lexLe (negP q) hd := by
        intro hd lst hhd hlst
        rw [hUhead] at hhd
        rw [hUlast] at hlst
        injection hhd with hhd
        injection hlst with hlst
        subst hhd
        subst hlst
        refine ⟨?_, lexLe_negP.mpr hqM, lexLe_negP.mpr hmq⟩
        rw [crossProduct_negP]
        exact hrev
      have hmem := stack_polygon_mem
        (buildStack ((S.mergeSort hullLe).reverse.map negP)).length
        (buildStack ((S.mergeSort hullLe).reverse.map negP)) (negP q) (le_refl _)
        hfu.1 hfu.2.1 (hfu.2.2.1 (negP q) hnegq) hU2 hclose
      have hmem2 : toVec q ∈
          convexHull ℚ (vset (buildStack (S.mergeSort hullLe).reverse)) := by
        rw [buildStack_negP, vset_map_negP, convexHull_neg]
        rw [Set.mem_neg]
        rw [← toVec_negP]
        exact hmem
      refine convexHull_mono ?_ hmem2
      exact vset_mono (mem_hull_of_mem_upper S h3)

theorem lexLt_iff {a b : LatLng} : lexLt a b ↔ lexLe a b ∧ a ≠ b := by
  constructor
  · rintro (h | ⟨h1, h2⟩)
    · refine ⟨Or.inl h, ?_⟩
      intro he
      rw [he] at h
      exact lt_irrefl _ h
    · refine ⟨Or.inr ⟨h1, le_of_lt h2⟩, ?_⟩
      intro he
      rw [he] at h2
      exact lt_irrefl _ h2
  · rintro ⟨h1 | ⟨h1, h1'⟩, h2⟩
    · exact Or.inl h1
    · rcases lt_or_eq_of_le h1' with h | h
      · exact Or.inr ⟨h1, h⟩
      · exact absurd (by cases a; cases b; simp_all) h2

theorem lexLt_of_lexLe_ne {a b : LatLng} (h1 : lexLe a b) (h2 : a ≠ b) :
    lexLt a b := lexLt_iff.mpr ⟨h1, h2⟩

theorem lexLt_trans {a b c : LatLng} (h1 : lexLt a b) (h2 : lexLt b c) :
    lexLt a c := by
  rcases lexLt_iff.mp h1 with ⟨hle1, hne1⟩
  rcases lexLt_iff.mp h2 with ⟨hle2, hne2⟩
  refine lexLt_iff.mpr ⟨lexLe_trans hle1 hle2, ?_⟩
  intro he
  subst he
  exact hne1 (lexLe_antisymm hle1 hle2)

/-- Cross-product transitivity in the lex-positive cone, strict-then-weak. -/
theorem cone_trans_sw {ux uy wx wy zx zy : ℚ}
    (hu : 0 < ux ∨ (ux = 0 ∧ 0 < uy)) (hw : 0 < wx ∨ (wx = 0 ∧ 0 < wy))
    (hz : 0 < zx ∨ (zx = 0 ∧ 0 < zy))
    (h1 : 0 < ux * wy - uy * wx) (h2 : 0 ≤ wx * zy - wy * zx) :
    0 < ux * zy - uy * zx := by
  rcases hu with hu | ⟨hu0, huy⟩
  · rcases hw with hw | ⟨hw0, hwy⟩
    · rcases hz with hz | ⟨hz0, hzy⟩
      · nlinarith [mul_pos hz h1, mul_nonneg hu.le h2, mul_pos hu hz]
      · subst hz0
        nlinarith [mul_nonneg hu.le h2, mul_pos hu hzy, mul_pos h1 hzy]
    · rcases hz with hz | ⟨hz0, hzy⟩
      · subst hw0
        nlinarith [mul_pos hz h1, mul_pos hu hwy, mul_pos hz hwy]
      · subst hw0
        subst hz0
        nlinarith [mul_pos hu hzy, mul_pos hwy hzy, mul_pos h1 hzy]
  · rcases hw with hw | ⟨hw0, hwy⟩
    · subst hu0
      nlinarith [mul_pos huy hw]
    · subst hu0
      subst hw0
      nlinarith

/-- Cross-product transitivity in the lex-positive cone, weak-then-strict. -/
theorem cone_trans_ws {ux uy wx wy zx zy : ℚ}
    (hu : 0 < ux ∨ (ux = 0 ∧ 0 < uy)) (hw : 0 < wx ∨ (wx = 0 ∧ 0 < wy))
    (hz : 0 < zx ∨ (zx = 0 ∧ 0 < zy))
    (h1 : 0 ≤ ux * wy - uy * wx) (h2 : 0 < wx * zy - wy * zx) :
    0 < ux * zy - uy * zx := by
  rcases hu with hu | ⟨hu0, huy⟩
  · rcases hw with hw | ⟨hw0, hwy⟩
    · rcases hz with hz | ⟨hz0, hzy⟩
      · nlinarith [mul_pos hz h2, mul_nonneg h1 hz.le, mul_pos hu hz]
      · subst hz0
        nlinarith [mul_pos hw hzy, mul_pos hu hzy, mul_nonneg h1 hzy.le]
    · subst hw0
      rcases hz with hz | ⟨hz0, hzy⟩
      · nlinarith [mul_pos hwy hz, mul_nonneg h1 hz.le, mul_pos hu hz]
      · subst hz0
        nlinarith [mul_pos hwy hzy]
  · subst hu0
    rcases hw with hw | ⟨hw0, hwy⟩
    · rcases hz with hz | ⟨hz0, hzy⟩
      · nlinarith [mul_pos huy h2, mul_nonneg h1 hz.le, mul_pos huy hz]
      · subst hz0
        nlinarith [mul_pos hw hzy, mul_pos huy hzy]
    · subst hw0
      rcases hz with hz | ⟨hz0, hzy⟩
      · nlinarith [mul_pos hwy hz, mul_pos huy hz]
      · subst hz0
        nlinarith [mul_pos hwy hzy]

theorem lexLt_cone {a b : LatLng} (h : lexLt a b) :
    0 < b.lat - a.lat ∨ (b.lat - a.lat = 0 ∧ 0 < b.lng - a.lng) := by
  rcases h with h | ⟨h1, h2⟩
  · exact Or.inl (by linarith)
  · exact Or.inr ⟨by linarith, by linarith⟩

/-- The wedge lemma: a strict corner `r → v → p` of one chain cannot be
strictly straddled by an edge `d → c` of another chain lying weakly above
both corner edges; the straddling edge would pass strictly above `v`. -/
theorem wedge {r v p c d : LatLng}
    (hrv : lexLt r v) (hvp : lexLt v p) (hdv : lexLt d v) (hvc : lexLt v c)
    (h1 : 0 ≤ crossProduct r v d) (h2 : 0 ≤ crossProduct v p c)
    (hconv : 0 < crossProduct r v p) :
    crossProduct d c v < 0 := by
  have e1 : crossProduct r v d =
      (v.lat - d.lat) * (v.lng - r.lng) - (v.lng - d.lng) * (v.lat - r.lat) := by
    unfold crossProduct
    ring
  have e2 : crossProduct r v p =
      (v.lat - r.lat) * (p.lng - v.lng) - (v.lng - r.lng) * (p.lat - v.lat) := by
    unfold crossProduct
    ring
  have e3 : crossProduct v p c =
      (p.lat - v.lat) * (c.lng - v.lng) - (p.lng - v.lng) * (c.lat - v.lat) := by
    unfold crossProduct
    ring
  have e4 : crossProduct d c v =
      -((v.lat - d.lat) * (c.lng - v.lng) - (v.lng - d.lng) * (c.lat - v.lat)) := by
    unfold crossProduct
    ring
  rw [e1] at h1
  rw [e2] at hconv
  rw [e3] at h2
  rw [e4]
  have hD := lexLt_cone hdv
  have hR := lexLt_cone hrv
  have hP := lexLt_cone hvp
  have hC := lexLt_cone hvc
  have hDP : 0 < (v.lat - d.lat) * (p.lng - v.lng) -
      (v.lng - d.lng) * (p.lat - v.lat) :=
    cone_trans_ws hD hR hP h1 hconv
  have hDC : 0 < (v.lat - d.lat) * (c.lng - v.lng) -
      (v.lng - d.lng) * (c.lat - v.lat) :=
    cone_trans_sw hD hP hC hDP h2
  linarith

/-- In a sorted, strictly convex stack of length at least 3, adjacent points
are strictly decreasing: an adjacent duplicate would make some convexity
triple degenerate. -/
theorem convex_adjacent_strict : ∀ {A : List LatLng}, StackSorted A →
    StackConvex A → 3 ≤ A.length → List.Chain' (fun b a => lexLt a b) A
  | [], _, _, h3 => by simp at h3
  | [x], _, _, h3 => by simp at h3
  | [x, y], _, _, h3 => by simp at h3
  | x :: y :: z :: t, hs, hc, h3 => by
      have hxy : lexLe y x := (List.chain'_cons.mp hs).1
      have htri : 0 < crossProduct z y x := hc.1
      have hxyne : y ≠ x := by
        intro he
        rw [he, crossProduct_self_right] at htri
        exact lt_irrefl _ htri
      rw [List.chain'_cons]
      refine ⟨lexLt_of_lexLe_ne hxy hxyne, ?_⟩
      cases t with
      | nil =>
          have hyz : lexLe z y := (List.chain'_cons.mp (List.chain'_cons.mp hs).2).1
          have hyzne : z ≠ y := by
            intro he
            rw [← he, crossProduct_self_mid] at htri
            exact lt_irrefl _ htri
          exact List.chain'_cons.mpr ⟨lexLt_of_lexLe_ne hyz hyzne, List.chain'_singleton z⟩
      | cons w t' =>
          exact convex_adjacent_strict (List.chain'_cons.mp hs).2 hc.2
            (by simp only [List.length_cons]; omega)

theorem chain'_flip_lexLt_pairwise : ∀ {l : List LatLng},
    List.Chain' (fun b a => lexLt a b) l → List.Pairwise (fun b a => lexLt a b) l
  | [], _ => List.Pairwise.nil
  | [x], _ => List.pairwise_singleton _ x
  | x :: y :: l, h => by
      have h1 := (List.chain'_cons.mp h).1
      have h2 := chain'_flip_lexLt_pairwise (List.chain'_cons.mp h).2
      refine List.Pairwise.cons ?_ h2
      intro z hz
      rcases List.mem_cons.mp hz with rfl | hz'
      · exact h1
      · exact lexLt_trans ((List.pairwise_cons.mp h2).1 z hz') h1

/-- A member of a list that is neither the head value nor the last value has
both a predecessor and a successor: some tripled suffix exhibits it. -/
theorem interior_triple : ∀ {l : List LatLng} {v : LatLng}, v ∈ l →
    l.head? ≠ some v → l.getLast? ≠ some v →
    ∃ p r t, (p :: v :: r :: t).IsSuffix l
  | [], v, hv, _, _ => absurd hv (List.not_mem_nil v)
  | a :: rest, v, hv, hh, hl => by
      have hva : v ≠ a := by
        intro he
        exact hh (by rw [he]; rfl)
      have hvrest : v ∈ rest := by
        rcases List.mem_cons.mp hv with he | h
        · exact absurd he hva
        · exact h
      cases rest with
      | nil => cases hvrest
      | cons b rest' =>
          by_cases hvb : v = b
          · subst hvb
            cases rest' with
            | nil =>
                exact absurd (by simp) hl
            | cons c rest'' =>
                exact ⟨a, c, rest'', List.suffix_refl _⟩
          · have hh' : (b :: rest').head? ≠ some v := by
              simp only [List.head?_cons, ne_eq, Option.some.injEq]
              exact fun he => hvb he.symm
            have hl' : (b :: rest').getLast? ≠ some v := by
              intro hx
              refine hl ?_
              rw [List.getLast?_cons_cons]
              exact hx
            obtain ⟨p, r, t, hsuf⟩ := interior_triple hvrest hh' hl'
            exact ⟨p, r, t, hsuf.trans (List.suffix_cons a _)⟩

/-- In a descending chain whose ends straddle `x`, some consecutive pair
straddles `x`. -/
theorem consecutive_straddle : ∀ {l : List LatLng} {hd lst x : LatLng},
    List.Chain' (fun b a => lexLe a b) l →
    l.head? = some hd → l.getLast? = some lst →
    lexLe lst x → lexLe x hd →
    2 ≤ l.length →
    ∃ c d t, (c :: d :: t).IsSuffix l ∧ lexLe d x ∧ lexLe x c
  | [], hd, lst, x, _, hh, _, _, _, h2 => by simp at h2
  | [c], hd, lst, x, _, hh, hl, _, _, h2 => by simp at h2
  | c :: d :: t, hd, lst, x, hch, hh, hl, hlx, hxh, h2 => by
      have hchd : c = hd := by simpa using hh
      have hxc : lexLe x c := by
        rw [hchd]
        exact hxh
      rcases lexLe_total x d with hxd | hdx
      · -- x ≤ d: recurse into d :: t
        cases t with
        | nil =>
            have hdlst : d = lst := by simpa using hl
            have hdx' : lexLe d x := by
              rw [hdlst]
              exact hlx
            exact ⟨c, d, [], List.suffix_refl _, hdx', hxc⟩
        | cons e t' =>
            have hl' : (d :: e :: t').getLast? = some lst := by
              rw [List.getLast?_cons_cons] at hl
              exact hl
            obtain ⟨c', d', t'', hsuf, h1, h2'⟩ := consecutive_straddle
              (List.chain'_cons.mp hch).2 rfl hl' hlx hxd
              (by simp only [List.length_cons]; omega)
            exact ⟨c', d', t'', hsuf.trans (List.suffix_cons c _), h1, h2'⟩
      · exact ⟨c, d, t, List.suffix_refl _, hdx, hxc⟩

/-- Two strictly descending lists with the same members are equal. -/
theorem eq_of_strict_desc_mem_iff : ∀ {A B : List LatLng},
    List.Pairwise (fun b a => lexLt a b) A →
    List.Pairwise (fun b a => lexLt a b) B →
    (∀ x, x ∈ A ↔ x ∈ B) → A = B
  | [], [], _, _, _ => rfl
  | [], b :: B', _, _, hmem => by
      have := (hmem b).mpr (List.mem_cons_self _ _)
      cases this
  | a :: A', [], _, _, hmem => by
      have := (hmem a).mp (List.mem_cons_self _ _)
      cases this
  | a :: A', b :: B', hA, hB, hmem => by
      have hab : a = b := by
        have haB := (hmem a).mp (List.mem_cons_self _ _)
        have hbA := (hmem b).mpr (List.mem_cons_self _ _)
        rcases List.mem_cons.mp haB with he | haB'
        · exact he
        · rcases List.mem_cons.mp hbA with he | hbA'
          · exact he.symm
          · have h1 : lexLt a b := (List.pairwise_cons.mp hB).1 a haB'
            have h2 : lexLt b a := (List.pairwise_cons.mp hA).1 b hbA'
            exact absurd (lexLe_antisymm (lexLt_iff.mp h1).1 (lexLt_iff.mp h2).1)
              (lexLt_iff.mp h1).2
      subst hab
      have hmem' : ∀ x, x ∈ A' ↔ x ∈ B' := by
        intro x
        constructor
        · intro hx
          have hxa : lexLt x a := (List.pairwise_cons.mp hA).1 x hx
          have := (hmem x).mp (List.mem_cons_of_mem a hx)
          rcases List.mem_cons.mp this with he | h
          · exact absurd he (lexLt_iff.mp hxa).2
          · exact h
        · intro hx
          have hxa : lexLt x a := (List.pairwise_cons.mp hB).1 x hx
          have := (hmem x).mpr (List.mem_cons_of_mem a hx)
          rcases List.mem_cons.mp this with he | h
          · exact absurd he (lexLt_iff.mp hxa).2
          · exact h
      rw [eq_of_strict_desc_mem_iff (List.pairwise_cons.mp hA).2
        (List.pairwise_cons.mp hB).2 hmem']

theorem mem_of_head?_eq_some {l : List LatLng} {x : LatLng}
    (h : l.head? = some x) : x ∈ l := by
  cases l with
  | nil => cases h
  | cons a t =>
      simp only [List.head?_cons, Option.some.injEq] at h
      rw [← h]
      exact List.mem_cons_self _ _

/-- Membership transfer between two chains with the hull-scan invariants over
the same sorted point list: every vertex of `A` is a vertex of `B`.  A missing
interior vertex would be a strict corner of `A` strictly straddled by an edge
of `B`, contradicting the wedge lemma. -/
theorem chain_mem_of_above {Q A B : List LatLng} {m M : LatLng}
    (hQpw : List.Pairwise lexLe Q)
    (hQh : Q.head? = some m) (hQl : Q.getLast? = some M)
    (hA1 : StackSorted A) (hA2 : StackConvex A)
    (hA3 : ∀ q ∈ Q, StackAbove q A) (hA4 : ∀ a ∈ A, a ∈ Q)
    (hA5 : A.head? = some M) (hA6 : A.getLast? = some m)
    (hB1 : StackSorted B)
    (hB3 : ∀ q ∈ Q, StackAbove q B) (hB4 : ∀ b ∈ B, b ∈ Q)
    (hB5 : B.head? = some M) (hB6 : B.getLast? = some m)
    (hBlen : 2 ≤ B.length) :
    ∀ v ∈ A, v ∈ B := by
  intro v hv
  by_cases hvM : v = M
  · subst hvM
    exact mem_of_head?_eq_some hB5
  by_cases hvm : v = m
  · subst hvm
    exact List.mem_of_getLast?_eq_some hB6
  have hAh : A.head? ≠ some v := by
    rw [hA5]
    intro he
    injection he with he
    exact hvM he.symm
  have hAl : A.getLast? ≠ some v := by
    rw [hA6]
    intro he
    injection he with he
    exact hvm he.symm
  obtain ⟨p, r, t, hsuf⟩ := interior_triple hv hAh hAl
  by_contra hvB
  have hvQ : v ∈ Q := hA4 v hv
  have hmv : lexLe m v := pairwise_head_le hQpw hQh hvQ
  have hvM' : lexLe v M := pairwise_le_getLast hQpw hQl hvQ
  obtain ⟨c, d, t', hsufB, hdv, hvc⟩ :=
    consecutive_straddle hB1 hB5 hB6 hmv hvM' hBlen
  have hcB : c ∈ B := hsufB.subset (List.mem_cons_self _ _)
  have hdB : d ∈ B := hsufB.subset (List.mem_cons_of_mem _ (List.mem_cons_self _ _))
  have hdvlt : lexLt d v :=
    lexLt_of_lexLe_ne hdv (fun he => hvB (he ▸ hdB))
  have hvclt : lexLt v c :=
    lexLt_of_lexLe_ne hvc (fun he => hvB (he.symm ▸ hcB))
  have hAlen : 3 ≤ A.length := by
    have := hsuf.length_le
    simp only [List.length_cons] at this
    omega
  have hstrict := convex_adjacent_strict hA1 hA2 hAlen
  have hstrictsuf := hstrict.suffix hsuf
  have hvplt : lexLt v p := (List.chain'_cons.mp hstrictsuf).1
  have hrvlt : lexLt r v :=
    (List.chain'_cons.mp (List.chain'_cons.mp hstrictsuf).2).1
  have hconvsuf := StackConvex_suffix hA2 hsuf
  have htri : 0 < crossProduct r v p := hconvsuf.1
  have habd := (hA3 d (hB4 d hdB)).suffix hsuf
  have h1 : 0 ≤ crossProduct r v d :=
    (List.chain'_cons.mp (List.chain'_cons.mp habd).2).1
  have habc := (hA3 c (hB4 c hcB)).suffix hsuf
  have h2 : 0 ≤ crossProduct v p c := (List.chain'_cons.mp habc).1
  have habv := (hB3 v hvQ).suffix hsufB
  have h3 : 0 ≤ crossProduct d c v := (List.chain'_cons.mp habv).1
  have := wedge hrvlt hvplt hdvlt hvclt h1 h2 htri
  linarith

theorem chain_pairwise_strict {Q A : List LatLng} {m M : LatLng}
    (hQpw : List.Pairwise lexLe Q)
    (hQh : Q.head? = some m) (hQl : Q.getLast? = some M)
    (hA1 : StackSorted A) (hA2 : StackConvex A)
    (hA5 : A.head? = some M) (hA6 : A.getLast? = some m)
    (hAlen : 2 ≤ A.length) (hne : m ≠ M) :
    List.Pairwise (fun b a => lexLt a b) A := by
  by_cases h3 : 3 ≤ A.length
  · exact chain'_flip_lexLt_pairwise (convex_adjacent_strict hA1 hA2 h3)
  · have hlen2 : A.length = 2 := by omega
    cases A with
    | nil => simp at hlen2
    | cons x A' =>
        cases A' with
        | nil => simp at hlen2
        | cons y A'' =>
            cases A'' with
            | cons z A''' => simp at hlen2
            | nil =>
                have hx : x = M := by simpa using hA5
                have hy : y = m := by simpa using hA6
                have hmM : lexLe m M :=
                  pairwise_le_getLast hQpw hQl (mem_of_head?_eq_some hQh)
                refine List.Pairwise.cons ?_ (List.pairwise_singleton _ _)
                intro z hz
                have hzy : z = y := by simpa using hz
                rw [hx, hzy, hy]
                exact lexLt_of_lexLe_ne hmM hne

/-- Uniqueness of the hull chain: two stacks satisfying the scan invariants
over the same sorted point list are equal. -/
theorem chain_unique {Q A B : List LatLng} {m M : LatLng}
    (hQpw : List.Pairwise lexLe Q)
    (hQh : Q.head? = some m) (hQl : Q.getLast? = some M)
    (hA1 : StackSorted A) (hA2 : StackConvex A)
    (hA3 : ∀ q ∈ Q, StackAbove q A) (hA4 : ∀ a ∈ A, a ∈ Q)
    (hA5 : A.head? = some M) (hA6 : A.getLast? = some m)
    (hAlen : 2 ≤ A.length)
    (hB1 : StackSorted B) (hB2 : StackConvex B)
    (hB3 : ∀ q ∈ Q, StackAbove q B) (hB4 : ∀ b ∈ B, b ∈ Q)
    (hB5 : B.head? = some M) (hB6 : B.getLast? = some m)
    (hBlen : 2 ≤ B.length) :
    A = B := by
  by_cases hmM : m = M
  · -- all points of Q coincide; both chains are the two-element stack [m, m]
    have hconst : ∀ {C : List LatLng}, StackSorted C → StackConvex C →
        (∀ a ∈ C, a ∈ Q) → C.head? = some M → C.getLast? = some m →
        2 ≤ C.length → C = [m, m] := by
      intro C hC1 hC2 hC4 hC5 hC6 hClen
      have hmem : ∀ a ∈ C, a = m := by
        intro a ha
        have haQ := hC4 a ha
        have h1 : lexLe a M := pairwise_le_getLast hQpw hQl haQ
        have h2 : lexLe m a := pairwise_head_le hQpw hQh haQ
        have h1' : lexLe a m := by
          rw [hmM]
          exact h1
        exact lexLe_antisymm h1' h2
      have h3 : ¬3 ≤ C.length := by
        intro h3
        have hstrict := convex_adjacent_strict hC1 hC2 h3
        cases C with
        | nil => simp at hClen
        | cons x C' =>
            cases C' with
            | nil => simp at h3
            | cons y C'' =>
                have hxy : lexLt y x := (List.chain'_cons.mp hstrict).1
                have hx : x = m := hmem x (List.mem_cons_self _ _)
                have hy : y = m :=
                  hmem y (List.mem_cons_of_mem _ (List.mem_cons_self _ _))
                rw [hx, hy] at hxy
                exact (lexLt_iff.mp hxy).2 rfl
      have hlen2 : C.length = 2 := by omega
      cases C with
      | nil => simp at hlen2
      | cons x C' =>
          cases C' with
          | nil => simp at hlen2
          | cons y C'' =>
              cases C'' with
              | cons z C''' => simp at hlen2
              | nil =>
                  rw [hmem x (List.mem_cons_self _ _),
                    hmem y (List.mem_cons_of_mem _ (List.mem_cons_self _ _))]
    rw [hconst hA1 hA2 hA4 hA5 hA6 hAlen, hconst hB1 hB2 hB4 hB5 hB6 hBlen]
  · have hAB := chain_mem_of_above hQpw hQh hQl hA1 hA2 hA3 hA4 hA5 hA6
      hB1 hB3 hB4 hB5 hB6 hBlen
    have hBA := chain_mem_of_above hQpw hQh hQl hB1 hB2 hB3 hB4 hB5 hB6
      hA1 hA3 hA4 hA5 hA6 hAlen
    exact eq_of_strict_desc_mem_iff
      (chain_pairwise_strict hQpw hQh hQl hA1 hA2 hA5 hA6 hAlen hmM)
      (chain_pairwise_strict hQpw hQh hQl hB1 hB2 hB5 hB6 hBlen hmM)
      (fun x => ⟨hAB x, hBA x⟩)

/-- `calculateConvexHull` is idempotent: rerunning the scan on its own output
rebuilds exactly the same lower and upper stacks (by uniqueness of the chain
invariants), hence the same list. -/
theorem hull_idempotent (S : List LatLng) :
    calculateConvexHull (calculateConvexHull S) = calculateConvexHull S := by
  by_cases h3 : S.length < 3
  · rw [hull_small S h3]
    exact hull_small S h3
  · have hpw := pairwise_mergeSort_lexLe S
    have hslen : 3 ≤ (S.mergeSort hullLe).length := by
      rw [length_mergeSort_lexLe]
      omega
    have hslne : S.mergeSort hullLe ≠ [] := by
      intro h0
      rw [h0] at hslen
      simp at hslen
    obtain ⟨M, hM⟩ := Option.isSome_iff_exists.mp (List.getLast?_isSome.mpr hslne)
    obtain ⟨m, hm⟩ : ∃ m, (S.mergeSort hullLe).head? = some m := by
      cases hsl : S.mergeSort hullLe with
      | nil => exact absurd hsl hslne
      | cons a t => exact ⟨a, rfl⟩
    have hfl := buildStack_facts _ hpw
    have hpw' := pairwise_reverse_negP hpw
    have hfu := buildStack_facts ((S.mergeSort hullLe).reverse.map negP) hpw'
    have hL2 : 2 ≤ (buildStack (S.mergeSort hullLe)).length :=
      hfl.2.2.2.2.2.2.2 (by omega)
    have hU'2 : 2 ≤ (buildStack ((S.mergeSort hullLe).reverse.map negP)).length := by
      refine hfu.2.2.2.2.2.2.2 ?_
      rw [List.length_map, List.length_reverse]
      omega
    have hUeq : buildStack (S.mergeSort hullLe).reverse =
        (buildStack ((S.mergeSort hullLe).reverse.map negP)).map negP :=
      buildStack_negP _
    have hU2 : 2 ≤ (buildStack (S.mergeSort hullLe).reverse).length := by
      rw [hUeq, List.length_map]
      exact hU'2
    have hHlen : ¬(calculateConvexHull S).length < 3 := by
      rw [hull_eq_parts S h3, List.length_append, List.length_dropLast,
        List.length_reverse, List.length_reverse]
      omega
    -- extremes of the hull output
    have hLhead : (buildStack (S.mergeSort hullLe)).head? = some M := by
      rw [hfl.2.2.2.2.1, hM]
    have hLlast : (buildStack (S.mergeSort hullLe)).getLast? = some m := by
      rw [hfl.2.2.2.2.2.1, hm]
    have hU'head : (buildStack ((S.mergeSort hullLe).reverse.map negP)).head? =
        some (negP m) := by
      rw [hfu.2.2.2.2.1, List.getLast?_map, List.getLast?_reverse, hm]
      rfl
    have hU'last : (buildStack ((S.mergeSort hullLe).reverse.map negP)).getLast? =
        some (negP M) := by
      rw [hfu.2.2.2.2.2.1, List.head?_map, List.head?_reverse, hM]
      rfl
    have hMH : M ∈ calculateConvexHull S :=
      mem_hull_of_mem_lower S h3 M (mem_of_head?_eq_some hLhead)
    have hmH : m ∈ calculateConvexHull S :=
      mem_hull_of_mem_lower S h3 m (List.mem_of_getLast?_eq_some hLlast)
    -- the sorted second-scan input
    have hQ2pw := pairwise_mergeSort_lexLe (calculateConvexHull S)
    have hQ2mem : ∀ {x : LatLng},
        x ∈ (calculateConvexHull S).mergeSort hullLe ↔ x ∈ calculateConvexHull S :=
      mem_mergeSort_lexLe
    have hQ2sl : ∀ x ∈ (calculateConvexHull S).mergeSort hullLe,
        x ∈ S.mergeSort hullLe := by
      intro x hx
      exact mem_mergeSort_lexLe.mpr (hull_subset_input S x (hQ2mem.mp hx))
    have hQ2ne : (calculateConvexHull S).mergeSort hullLe ≠ [] := by
      intro h0
      have := hQ2mem.mpr hMH
      rw [h0] at this
      cases this
    have hQ2last : ((calculateConvexHull S).mergeSort hullLe).getLast? = some M := by
      obtain ⟨y, hy⟩ := Option.isSome_iff_exists.mp (List.getLast?_isSome.mpr hQ2ne)
      have h1 : lexLe M y := pairwise_le_getLast hQ2pw hy (hQ2mem.mpr hMH)
      have h2 : lexLe y M := pairwise_le_getLast hpw hM
        (hQ2sl y (List.mem_of_getLast?_eq_some hy))
      rw [hy, lexLe_antisymm h2 h1]
    have hQ2head : ((calculateConvexHull S).mergeSort hullLe).head? = some m := by
      obtain ⟨y, hy⟩ : ∃ y, ((calculateConvexHull S).mergeSort hullLe).head? = some y := by
        cases hq : (calculateConvexHull S).mergeSort hullLe with
        | nil => exact absurd hq hQ2ne
        | cons a t => exact ⟨a, rfl⟩
      have h1 : lexLe y m := pairwise_head_le hQ2pw hy (hQ2mem.mpr hmH)
      have h2 : lexLe m y := pairwise_head_le hpw hm
        (hQ2sl y (mem_of_head?_eq_some hy))
      rw [hy, lexLe_antisymm h1 h2]
    have hQ2len : 3 ≤ ((calculateConvexHull S).mergeSort hullLe).length := by
      rw [length_mergeSort_lexLe]
      omega
    -- the second lower scan rebuilds the first lower stack
    have hf2 := buildStack_facts _ hQ2pw
    have hlower : buildStack ((calculateConvexHull S).mergeSort hullLe) =
        buildStack (S.mergeSort hullLe) := by
      refine chain_unique hQ2pw hQ2head hQ2last hf2.1 hf2.2.1 hf2.2.2.1
        (fun a ha => hf2.2.2.2.1.subset (List.mem_reverse.mpr ha))
        (by rw [hf2.2.2.2.2.1, hQ2last]) (by rw [hf2.2.2.2.2.2.1, hQ2head])
        (hf2.2.2.2.2.2.2.2 (by omega))
        hfl.1 hfl.2.1 ?_ ?_ hLhead hLlast hL2
      · intro q hq
        exact hfl.2.2.1 q (hQ2sl q hq)
      · intro b hb
        exact hQ2mem.mpr (mem_hull_of_mem_lower S h3 b hb)
    -- the second upper scan rebuilds the first upper stack
    have hQ2npw := pairwise_reverse_negP hQ2pw
    have hf2u := buildStack_facts
      (((calculateConvexHull S).mergeSort hullLe).reverse.map negP) hQ2npw
    have hQ2nhead : ((((calculateConvexHull S).mergeSort hullLe).reverse.map
        negP)).head? = some (negP M) := by
      rw [List.head?_map, List.head?_reverse, hQ2last]
      rfl
    have hQ2nlast : ((((calculateConvexHull S).mergeSort hullLe).reverse.map
        negP)).getLast? = some (negP m) := by
      rw [List.getLast?_map, List.getLast?_reverse, hQ2head]
      rfl
    have hupper : buildStack (((calculateConvexHull S).mergeSort
        hullLe).reverse.map negP) =
        buildStack ((S.mergeSort hullLe).reverse.map negP) := by
      refine chain_unique hQ2npw hQ2nhead hQ2nlast hf2u.1 hf2u.2.1 hf2u.2.2.1
        (fun a ha => hf2u.2.2.2.1.subset (List.mem_reverse.mpr ha))
        (by rw [hf2u.2.2.2.2.1, hQ2nlast]) (by rw [hf2u.2.2.2.2.2.1, hQ2nhead])
        (hf2u.2.2.2.2.2.2.2 (by rw [List.length_map, List.length_reverse]; omega))
        hfu.1 hfu.2.1 ?_ ?_ hU'head hU'last hU'2
      · intro q hq
        obtain ⟨w, hw, hweq⟩ := List.mem_map.mp hq
        have hwsl : w ∈ S.mergeSort hullLe := hQ2sl w (List.mem_reverse.mp hw)
        refine hfu.2.2.1 q ?_
        rw [← hweq]
        exact List.mem_map_of_mem negP (List.mem_reverse.mpr hwsl)
      · intro b hb
        have hbU : negP b ∈ buildStack (S.mergeSort hullLe).reverse := by
          rw [hUeq]
          exact List.mem_map_of_mem negP hb
        have hbH : negP b ∈ calculateConvexHull S :=
          mem_hull_of_mem_upper S h3 (negP b) hbU
        have : negP b ∈ ((calculateConvexHull S).mergeSort hullLe).reverse :=
          List.mem_reverse.mpr (hQ2mem.mpr hbH)
        have hmem := List.mem_map_of_mem negP this
        rwa [negP_negP] at hmem
    -- assemble
    rw [hull_eq_parts (calculateConvexHull S) hHlen, hlower,
      buildStack_negP ((calculateConvexHull S).mergeSort hullLe), hupper,
      ← buildStack_negP (S.mergeSort hullLe), ← hull_eq_parts S h3]

/-- C7: for every point list `S`, `calculateConvexHull S` (Andrew's monotone
chain from `utils/geometry.ts`) returns only members of `S`; every point of
`S` lies on or inside the polygon formed by the returned vertices (stated as
membership in the rational convex hull of the returned vertex set); the
function is idempotent; and an input with fewer than 3 points is returned
unchanged. -/
theorem calculateConvexHull_spec (S : List LatLng) :
    (∀ v ∈ calculateConvexHull S, v ∈ S) ∧
    (∀ q ∈ S, toVec q ∈ convexHull ℚ (vset (calculateConvexHull S))) ∧
    calculateConvexHull (calculateConvexHull S) = calculateConvexHull S ∧
    (S.length < 3 → calculateConvexHull S = S) :=
  ⟨hull_subset_input S, fun q hq => hull_contains_input S q hq,
    hull_idempotent S, fun h => hull_small S h⟩

theorem calculateConvexHull_spec_witness :
    toVec ⟨0, 0⟩ ∈ convexHull ℚ
      (vset (calculateConvexHull [⟨0, 0⟩, ⟨3, 0⟩, ⟨0, 3⟩])) :=
  (calculateConvexHull_spec [⟨0, 0⟩, ⟨3, 0⟩, ⟨0, 3⟩]).2.1 ⟨0, 0⟩
    (List.mem_cons_self _ _)

end Territory
